import Mathlib

/-!
# Verification of the nplinker scoring/aggregation core

Shallow embedding of `prototype/nplinker/scoring/methods.py`:

* Python `dict`s become association lists (`List (κ × β)`) with
  insertion-order semantics: `dfind` is `d[k]` lookup, `dinsert` is
  `d[k] = v` (replace the value at the first occurrence of the key,
  keeping its position, else append), `ddel` is `del d[k]`, and
  `dupdate` is `d.update(e)`.
* `ObjectLink`, `LinkCollection` (with its AND/OR merge modes),
  `MetcalfScoring` (standardisation post-processing, cache-driven
  `setup`, `get_links` dispatch), `RosettaScoring` (hit filtering and
  dispatch) and `TestScoring` are translated function by function.
* Fallible Python code (raised exceptions) is rendered with `Except`.
* The mutable-default-argument semantics of `ObjectLink.__init__` is
  modelled with an explicit heap of lists, since the aliasing behaviour
  of the shared default `[]` is exactly what one of the claims is about.
-/

set_option autoImplicit false
set_option linter.unusedSectionVars false

namespace NPL

variable {κ : Type} [DecidableEq κ] {β : Type}

/-- Python dict lookup `d[k]` (first entry with the given key). -/
def dfind (k : κ) : List (κ × β) → Option β
  | [] => none
  | p :: rest => if p.1 = k then some p.2 else dfind k rest

/-- Python `k in d`. -/
def dcontains (k : κ) (d : List (κ × β)) : Bool :=
  (dfind k d).isSome

/-- Python dict assignment `d[k] = v`: replace the value at the first
occurrence of `k` (keeping its position), else append a new entry. -/
def dinsert (k : κ) (v : β) : List (κ × β) → List (κ × β)
  | [] => [(k, v)]
  | p :: rest => if p.1 = k then (k, v) :: rest else p :: dinsert k v rest

/-- Python `del d[k]` (removes the first entry with the key; in Python a
missing key raises `KeyError`, but every call site in the source deletes a
key that is present). -/
def ddel (k : κ) : List (κ × β) → List (κ × β)
  | [] => []
  | p :: rest => if p.1 = k then rest else p :: ddel k rest

/-- Python `d.update(e)`: insert every entry of `e` into `d`, in order. -/
def dupdate (d e : List (κ × β)) : List (κ × β) :=
  e.foldl (fun acc p => dinsert p.1 p.2 acc) d

/-- The key sequence of a dict. -/
def dkeys (d : List (κ × β)) : List κ :=
  d.map Prod.fst

/-- A well-formed Python dict never holds two entries with the same key. -/
def NodupKeys (d : List (κ × β)) : Prop :=
  (dkeys d).Nodup

instance (d : List (κ × β)) : Decidable (NodupKeys d) := by
  unfold NodupKeys; infer_instance

theorem dfind_dinsert (k t : κ) (v : β) (d : List (κ × β)) :
    dfind t (dinsert k v d) = if k = t then some v else dfind t d := by
  induction d with
  | nil => simp [dinsert, dfind]
  | cons p rest ih =>
    by_cases hpk : p.1 = k
    · by_cases hkt : k = t
      · simp [dinsert, hpk, dfind, hkt]
      · have hpt : ¬ p.1 = t := by rw [hpk]; exact hkt
        simp [dinsert, hpk, dfind, hkt, hpt]
    · by_cases hpt : p.1 = t
      · have hkt : ¬ k = t := fun h => hpk (hpt.trans h.symm)
        have htk : ¬ t = k := fun h => hkt h.symm
        simp [dinsert, hpk, dfind, hpt, hkt, htk]
      · simp [dinsert, hpk, dfind, hpt, ih]

theorem dfind_append (t : κ) (d e : List (κ × β)) :
    dfind t (d ++ e) = match dfind t d with
      | some v => some v
      | none => dfind t e := by
  induction d with
  | nil => simp [dfind]
  | cons p rest ih =>
    by_cases hpt : p.1 = t
    · simp [dfind, hpt]
    · simp [dfind, hpt, ih]

theorem dfind_filter_key (t : κ) (p : κ → Bool) (d : List (κ × β)) :
    dfind t (d.filter (fun q => p q.1)) =
      if p t then dfind t d else none := by
  induction d with
  | nil => simp [dfind]
  | cons q rest ih =>
    by_cases hqt : q.1 = t
    · subst hqt
      by_cases hp : p q.1
      · simp [List.filter, hp, dfind, ih]
      · simp only [List.filter]
        rw [show (p q.1) = false by simpa using hp]
        simp [ih, hp]
    · by_cases hp : p q.1
      · simp only [List.filter]
        rw [show (p q.1) = true by simpa using hp]
        simp [dfind, hqt, ih]
      · simp only [List.filter]
        rw [show (p q.1) = false by simpa using hp]
        rw [ih]
        by_cases hpt : p t <;> simp [hpt, dfind, hqt]

theorem dfind_eq_none_of_not_mem_keys {t : κ} {d : List (κ × β)}
    (h : t ∉ dkeys d) : dfind t d = none := by
  induction d with
  | nil => simp [dfind]
  | cons p rest ih =>
    simp only [dkeys, List.map_cons, List.mem_cons] at h
    push_neg at h
    have hpt : ¬ p.1 = t := fun hh => h.1 hh.symm
    simp only [dfind, if_neg hpt]
    exact ih (by simpa [dkeys] using h.2)

theorem mem_keys_of_dfind_some {t : κ} {d : List (κ × β)} {v : β}
    (h : dfind t d = some v) : t ∈ dkeys d := by
  induction d with
  | nil => simp [dfind] at h
  | cons p rest ih =>
    by_cases hpt : p.1 = t
    · simp [dkeys, hpt]
    · simp only [dfind, if_neg hpt] at h
      simp [dkeys, List.mem_cons]
      right
      simpa [dkeys] using ih h

theorem mem_of_dfind_some {t : κ} {d : List (κ × β)} {v : β}
    (h : dfind t d = some v) : (t, v) ∈ d := by
  induction d with
  | nil => simp [dfind] at h
  | cons p rest ih =>
    by_cases hpt : p.1 = t
    · simp only [dfind, if_pos hpt] at h
      have hv : p.2 = v := Option.some.inj h
      have hp : p = (t, v) := by
        obtain ⟨p1, p2⟩ := p
        simp only at hpt hv
        rw [hpt, hv]
      rw [← hp]
      exact List.mem_cons_self _ _
    · simp only [dfind, if_neg hpt] at h
      exact List.mem_cons_of_mem _ (ih h)

theorem dfind_of_mem {t : κ} {d : List (κ × β)} {v : β}
    (hnd : NodupKeys d) (h : (t, v) ∈ d) : dfind t d = some v := by
  induction d with
  | nil => simp at h
  | cons p rest ih =>
    simp only [NodupKeys, dkeys, List.map_cons, List.nodup_cons] at hnd
    rcases List.mem_cons.mp h with h1 | h2
    · rw [← h1]
      simp [dfind]
    · have hpt : ¬ p.1 = t := by
        intro hh
        exact hnd.1 (hh ▸ (by simpa [dkeys] using List.mem_map_of_mem Prod.fst h2))
      simp only [dfind, if_neg hpt]
      exact ih hnd.2 h2

theorem dcontains_iff_mem_keys (k : κ) (d : List (κ × β)) :
    dcontains k d = true ↔ k ∈ dkeys d := by
  induction d with
  | nil => simp [dcontains, dfind, dkeys]
  | cons p rest ih =>
    by_cases hpk : p.1 = k
    · simp [dcontains, dfind, hpk, dkeys]
    · simp only [dcontains, dfind, if_neg hpk, dkeys, List.map_cons, List.mem_cons]
      rw [show (dfind k rest).isSome = dcontains k rest from rfl]
      rw [ih]
      constructor
      · intro h; right; simpa [dkeys] using h
      · intro h
        rcases h with h1 | h2
        · exact absurd h1.symm hpk
        · simpa [dkeys] using h2

theorem dfind_dupdate (t : κ) (d e : List (κ × β)) (he : NodupKeys e) :
    dfind t (dupdate d e) = match dfind t e with
      | some v => some v
      | none => dfind t d := by
  induction e generalizing d with
  | nil => simp [dupdate, dfind]
  | cons q rest ih =>
    simp only [NodupKeys, dkeys, List.map_cons, List.nodup_cons] at he
    have hstep : dupdate d (q :: rest) = dupdate (dinsert q.1 q.2 d) rest := by
      simp [dupdate, List.foldl_cons]
    rw [hstep, ih _ he.2]
    by_cases hqt : q.1 = t
    · have : dfind t rest = none :=
        dfind_eq_none_of_not_mem_keys (by rw [← hqt]; simpa [dkeys] using he.1)
      rw [this]
      simp [dfind, hqt, dfind_dinsert]
    · simp only [dfind, if_neg hqt]
      cases dfind t rest <;> simp [dfind_dinsert, hqt]

theorem dcontains_dinsert (k t : κ) (v : β) (d : List (κ × β)) :
    dcontains t (dinsert k v d) = (dcontains t d || decide (k = t)) := by
  simp only [dcontains, dfind_dinsert]
  by_cases hkt : k = t <;> simp [hkt]

theorem dcontains_dupdate_left {k : κ} {d : List (κ × β)} (e : List (κ × β))
    (h : dcontains k d = true) : dcontains k (dupdate d e) = true := by
  induction e generalizing d with
  | nil => simpa [dupdate]
  | cons q rest ih =>
    have hstep : dupdate d (q :: rest) = dupdate (dinsert q.1 q.2 d) rest := by
      simp [dupdate, List.foldl_cons]
    rw [hstep]
    exact ih (by simp [dcontains_dinsert, h])

theorem dcontains_dupdate_right {k : κ} {e : List (κ × β)} (d : List (κ × β))
    (h : dcontains k e = true) : dcontains k (dupdate d e) = true := by
  induction e generalizing d with
  | nil => simp [dcontains, dfind] at h
  | cons q rest ih =>
    have hstep : dupdate d (q :: rest) = dupdate (dinsert q.1 q.2 d) rest := by
      simp [dupdate, List.foldl_cons]
    rw [hstep]
    by_cases hqk : q.1 = k
    · exact dcontains_dupdate_left rest (by simp [dcontains_dinsert, hqk])
    · simp only [dcontains, dfind, if_neg hqk] at h
      exact ih _ h

theorem dupdate_self {d : List (κ × β)} (h : NodupKeys d) : dupdate d d = d := by
  have key : ∀ e d' : List (κ × β),
      (∀ p ∈ e, dfind p.1 d' = some p.2) → dupdate d' e = d' := by
    intro e
    induction e with
    | nil => intro d' _; simp [dupdate]
    | cons q rest ih =>
      intro d' hall
      have hstep : dupdate d' (q :: rest) = dupdate (dinsert q.1 q.2 d') rest := by
        simp [dupdate, List.foldl_cons]
      rw [hstep]
      have hq : dfind q.1 d' = some q.2 := hall q (List.mem_cons_self _ _)
      have hins : dinsert q.1 q.2 d' = d' := by
        clear hstep hall ih
        induction d' with
        | nil => simp [dfind] at hq
        | cons r rest' ih' =>
          by_cases hrq : r.1 = q.1
          · simp only [dfind, if_pos hrq] at hq
            have : r = (q.1, q.2) := by
              obtain ⟨r1, r2⟩ := r
              simp only at hrq hq
              rw [hrq, Option.some.inj hq]
            simp [dinsert, hrq, this]
          · simp only [dfind, if_neg hrq] at hq
            simp [dinsert, hrq, ih' hq]
      rw [hins]
      exact ih _ (fun p hp => hall p (List.mem_cons_of_mem _ hp))
  exact key d d (fun p hp => dfind_of_mem h hp)

theorem dkeys_dinsert_of_contains {k : κ} {d : List (κ × β)} (v : β)
    (h : dcontains k d = true) : dkeys (dinsert k v d) = dkeys d := by
  induction d with
  | nil => simp [dcontains, dfind] at h
  | cons p rest ih =>
    by_cases hpk : p.1 = k
    · simp [dinsert, hpk, dkeys]
    · simp only [dcontains, dfind, if_neg hpk] at h
      simp only [dinsert, if_neg hpk, dkeys, List.map_cons, List.cons.injEq, true_and]
      exact ih h

theorem dkeys_append (d e : List (κ × β)) :
    dkeys (d ++ e) = dkeys d ++ dkeys e := by
  simp [dkeys]

theorem nodupKeys_filter (p : κ × β → Bool) {d : List (κ × β)}
    (h : NodupKeys d) : NodupKeys (d.filter p) := by
  unfold NodupKeys dkeys at *
  exact List.Nodup.sublist (List.Sublist.map Prod.fst (List.filter_sublist d)) h

/-! ## Domain objects

The scoring core manipulates four kinds of domain objects (`GCF`, `BGC`,
`Spectrum`, `MolecularFamily`); these are distinct, unrelated Python
classes, so `isinstance(x, type(y))` holds exactly when the kinds agree.
Each object carries its nplinker-internal integer id. -/

inductive ObjKind : Type
  | bgc
  | gcf
  | spectrum
  | molecularFamily
deriving DecidableEq

structure NPObject : Type where
  kind : ObjKind
  id : Nat
deriving DecidableEq

/-! ## ObjectLink (`methods.py` lines 197-252)

`ObjectLink.__init__` stores the source, the target, the shared strains
and `self._method_data = {method: data}`.  Methods are identified here by
the id of the method instance (distinct instances get distinct ids).
`δ` is the per-method payload type (a float for Metcalf, a list of hits
for Rosetta). -/

structure ObjectLink (δ : Type) : Type where
  source : NPObject
  target : NPObject
  shared_strains : List Nat
  method_data : List (Nat × δ)
deriving DecidableEq

namespace ObjectLink

variable {δ : Type}

/-- Constructor: `ObjectLink(source, target, method, data)`. -/
def mk' (source target : NPObject) (method : Nat) (data : δ) : ObjectLink δ :=
  { source := source, target := target, shared_strains := [],
    method_data := [(method, data)] }

/-- `_merge`: `self._method_data.update(other_link._method_data); return self`. -/
def _merge (self other : ObjectLink δ) : ObjectLink δ :=
  { self with method_data := dupdate self.method_data other.method_data }

/-- `set_data`: `self._method_data[method] = newdata`. -/
def set_data (self : ObjectLink δ) (method : Nat) (newdata : δ) : ObjectLink δ :=
  { self with method_data := dinsert method newdata self.method_data }

/-- `method_count` property: `len(self._method_data)`. -/
def method_count (self : ObjectLink δ) : Nat :=
  self.method_data.length

/-- Python exceptions raised by the two payload-lookup paths. -/
inductive PyErr : Type
  | keyError
  | attributeError
deriving DecidableEq

/-- `data(method)`: `return self._method_data[method]` — a plain dict
subscript, which raises `KeyError` when the method is absent. -/
def data (self : ObjectLink δ) (method : Nat) : Except PyErr δ :=
  match dfind method self.method_data with
  | some d => Except.ok d
  | none => Except.error PyErr.keyError

/-- `__getitem__(name)`: returns `self._method_data[name]` when present,
and otherwise evaluates `object.__getitem__(self, name)` — `object` has
no `__getitem__` attribute, so this raises `AttributeError`. -/
def getitem (self : ObjectLink δ) (name : Nat) : Except PyErr δ :=
  if dcontains name self.method_data then
    match dfind name self.method_data with
    | some d => Except.ok d
    | none => Except.error PyErr.keyError
  else
    Except.error PyErr.attributeError

end ObjectLink

/-! ## LinkCollection (`methods.py` lines 33-195) -/

/-- `{target: ObjectLink}` — the inner dict of `_link_data`. -/
abbrev Links (δ : Type) : Type := List (NPObject × ObjectLink δ)

/-- `{source: {target: ObjectLink}}` — the `_link_data` dict. -/
abbrev LinkData (δ : Type) : Type := List (NPObject × Links δ)

structure LinkCollection (δ : Type) : Type where
  methods : List Nat
  link_data : LinkData δ
  and_mode : Bool
deriving DecidableEq

/-- Double lookup `_link_data[source][target]`. -/
def lookup2 {δ : Type} (ld : LinkData δ) (s t : NPObject) : Option (ObjectLink δ) :=
  (dfind s ld).bind (fun links => dfind t links)

/-- The merge loop shared by both modes:
`for target, object_link in links.items(): ..._merge(object_link)`.
In AND mode the guard `if target in self._link_data[source]` skips
targets missing from the surviving dict; in OR mode every target is
already present, so the `none` branch is unreachable there. -/
def mergeTargets {δ : Type} (cur new : Links δ) : Links δ :=
  new.foldl (fun acc q =>
    match dfind q.1 acc with
    | some v => dinsert q.1 (v._merge q.2) acc
    | none => acc) cur

/-- `_merge_and_mode` (lines 73-99): keep only sources common to the
existing aggregate and the new results; for those, keep only common
targets, merge the surviving `ObjectLink`s, and drop any source left
with no targets. `to_remove` deletions are rendered by not emitting the
entry. -/
def merge_and_mode {δ : Type} (ld object_links : LinkData δ) : LinkData δ :=
  ld.filterMap (fun p =>
    match dfind p.1 object_links with
    | none => none
    | some links_to_merge =>
      let survivors := p.2.filter (fun q => dcontains q.1 links_to_merge)
      let merged := mergeTargets survivors links_to_merge
      if merged.isEmpty then none else some (p.1, merged))

/-- One iteration of the `_merge_or_mode` loop body for a single
`(source, links)` item of the new results. -/
def or_step {δ : Type} (ld : LinkData δ) (p : NPObject × Links δ) : LinkData δ :=
  let ld1 : LinkData δ :=
    match dfind p.1 ld with
    | none => dinsert p.1 p.2 ld
    | some cur =>
      dinsert p.1 (dupdate cur (p.2.filter (fun q => ! dcontains q.1 cur))) ld
  match dfind p.1 ld1 with
  | none => ld1
  | some cur => dinsert p.1 (mergeTargets cur p.2) ld1

/-- `_merge_or_mode` (lines 101-113). -/
def merge_or_mode {δ : Type} (ld object_links : LinkData δ) : LinkData δ :=
  object_links.foldl or_step ld

/-- `_add_links_from_method` (lines 50-71).  Raises on a duplicate
method; the first contribution is stored verbatim, later ones are merged
according to the collection's mode; finally the method joins the set. -/
def add_links_from_method {δ : Type} (lc : LinkCollection δ) (method : Nat)
    (object_links : LinkData δ) : Except String (LinkCollection δ) :=
  if lc.methods.contains method then
    Except.error "Duplicate method found in LinkCollection"
  else
    Except.ok
      ⟨lc.methods ++ [method],
       (if lc.methods.length = 0 then object_links
        else if ¬ lc.and_mode then merge_or_mode lc.link_data object_links
        else merge_and_mode lc.link_data object_links),
       lc.and_mode⟩

/-! ## Characterisation of the merge algorithms -/

section MergeLemmas

variable {δ : Type}

/-- Lookup in a dict filtered by key-membership in another dict `e`. -/
theorem dfind_filter_dcontains {γ : Type} (t : NPObject) (e : List (NPObject × γ))
    (d : Links δ) :
    dfind t (d.filter (fun q => dcontains q.1 e)) =
      if dcontains t e then dfind t d else none := by
  induction d with
  | nil => simp [dfind]
  | cons q rest ih =>
    by_cases hqt : q.1 = t
    · subst hqt
      by_cases hc : dcontains q.1 e
      · rw [List.filter_cons_of_pos (by simpa using hc)]
        simp [dfind, hc]
      · rw [List.filter_cons_of_neg (by simpa using hc)]
        rw [ih]
        simp [show dcontains q.1 e = false by simpa using hc]
    · by_cases hc : dcontains q.1 e
      · rw [List.filter_cons_of_pos (by simpa using hc)]
        simp only [dfind, if_neg hqt]
        exact ih
      · rw [List.filter_cons_of_neg (by simpa using hc)]
        rw [ih]
        by_cases hct : dcontains t e <;> simp [hct, dfind, hqt]

/-- Lookup in a dict filtered by key-absence from another dict `e`. -/
theorem dfind_filter_not_dcontains {γ : Type} (t : NPObject) (e : List (NPObject × γ))
    (d : Links δ) :
    dfind t (d.filter (fun q => ! dcontains q.1 e)) =
      if dcontains t e then none else dfind t d := by
  induction d with
  | nil => simp [dfind]
  | cons q rest ih =>
    by_cases hqt : q.1 = t
    · subst hqt
      by_cases hc : dcontains q.1 e
      · rw [List.filter_cons_of_neg (by simpa using hc)]
        rw [ih]
        simp only [show dcontains q.1 e = true by simpa using hc, if_true]
      · rw [List.filter_cons_of_pos (by simpa using hc)]
        simp [dfind, show dcontains q.1 e = false by simpa using hc]
    · by_cases hc : dcontains q.1 e
      · rw [List.filter_cons_of_neg (by simpa using hc)]
        rw [ih]
        by_cases hct : dcontains t e <;> simp [hct, dfind, hqt]
      · rw [List.filter_cons_of_pos (by simpa using hc)]
        simp only [dfind, if_neg hqt]
        exact ih

/-- What the shared merge loop computes, entry-wise: a target present in
both dicts ends up with the existing link merged with the new one; a
target only in `cur` is untouched; a target missing from `cur` is never
added. -/
theorem dfind_mergeTargets (cur new : Links δ) (hnew : NodupKeys new) (t : NPObject) :
    dfind t (mergeTargets cur new) =
      match dfind t cur, dfind t new with
      | some a, some b => some (a._merge b)
      | some a, none => some a
      | none, _ => none := by
  induction new generalizing cur with
  | nil =>
    simp only [mergeTargets, List.foldl_nil, dfind]
    cases dfind t cur <;> rfl
  | cons q rest ih =>
    simp only [NodupKeys, dkeys, List.map_cons, List.nodup_cons] at hnew
    have hrest : NodupKeys rest := hnew.2
    have hq : q.1 ∉ dkeys rest := by simpa [dkeys] using hnew.1
    simp only [mergeTargets, List.foldl_cons]
    cases hfq : dfind q.1 cur with
    | some v =>
      rw [show (rest.foldl (fun acc q' =>
            match dfind q'.1 acc with
            | some v' => dinsert q'.1 (v'._merge q'.2) acc
            | none => acc) (dinsert q.1 (v._merge q.2) cur)) =
          mergeTargets (dinsert q.1 (v._merge q.2) cur) rest from rfl]
      rw [ih _ hrest]
      by_cases hqt : q.1 = t
      · subst hqt
        rw [dfind_eq_none_of_not_mem_keys hq]
        simp [dfind_dinsert, dfind, hfq]
      · simp [dfind_dinsert, hqt, dfind]
    | none =>
      rw [show (rest.foldl (fun acc q' =>
            match dfind q'.1 acc with
            | some v' => dinsert q'.1 (v'._merge q'.2) acc
            | none => acc) cur) = mergeTargets cur rest from rfl]
      rw [ih _ hrest]
      by_cases hqt : q.1 = t
      · subst hqt
        rw [hfq, dfind_eq_none_of_not_mem_keys hq]
      · simp [dfind, hqt]

/-- The keys of the merge loop\'s result are exactly the keys of `cur`. -/
theorem dkeys_mergeTargets (cur new : Links δ) :
    dkeys (mergeTargets cur new) = dkeys cur := by
  induction new generalizing cur with
  | nil => simp [mergeTargets]
  | cons q rest ih =>
    simp only [mergeTargets, List.foldl_cons]
    cases hfq : dfind q.1 cur with
    | some v =>
      rw [show (rest.foldl (fun acc q' =>
            match dfind q'.1 acc with
            | some v' => dinsert q'.1 (v'._merge q'.2) acc
            | none => acc) (dinsert q.1 (v._merge q.2) cur)) =
          mergeTargets (dinsert q.1 (v._merge q.2) cur) rest from rfl]
      rw [ih]
      exact dkeys_dinsert_of_contains _ (by simp [dcontains, hfq])
    | none =>
      rw [show (rest.foldl (fun acc q' =>
            match dfind q'.1 acc with
            | some v' => dinsert q'.1 (v'._merge q'.2) acc
            | none => acc) cur) = mergeTargets cur rest from rfl]
      exact ih cur

/-- Unfolding steps of `_merge_and_mode` over the existing aggregate. -/
theorem merge_and_mode_cons_none {p : NPObject × Links δ} {ol : LinkData δ}
    (rest : LinkData δ) (h : dfind p.1 ol = none) :
    merge_and_mode (p :: rest) ol = merge_and_mode rest ol := by
  simp only [merge_and_mode, List.filterMap_cons, h]

theorem merge_and_mode_cons_some {p : NPObject × Links δ} {ol : LinkData δ}
    {ltm : Links δ} (rest : LinkData δ) (h : dfind p.1 ol = some ltm) :
    merge_and_mode (p :: rest) ol =
      (if (mergeTargets (p.2.filter (fun q => dcontains q.1 ltm)) ltm).isEmpty then
        merge_and_mode rest ol
      else
        (p.1, mergeTargets (p.2.filter (fun q => dcontains q.1 ltm)) ltm) ::
          merge_and_mode rest ol) := by
  simp only [merge_and_mode, List.filterMap_cons, h]
  by_cases hemp : (mergeTargets (p.2.filter (fun q => dcontains q.1 ltm)) ltm).isEmpty
  · simp [hemp]
  · simp [hemp]

/-- Sources of the AND-merge result come from the existing aggregate. -/
theorem mem_keys_merge_and_mode {ld ol : LinkData δ} {s : NPObject}
    (h : s ∈ dkeys (merge_and_mode ld ol)) : s ∈ dkeys ld := by
  induction ld with
  | nil => simpa [merge_and_mode] using h
  | cons p rest ih =>
    cases hfp : dfind p.1 ol with
    | none =>
      rw [merge_and_mode_cons_none rest hfp] at h
      exact List.mem_cons_of_mem _ (ih h)
    | some ltm =>
      rw [merge_and_mode_cons_some rest hfp] at h
      by_cases hempty :
          (mergeTargets (p.2.filter (fun q => dcontains q.1 ltm)) ltm).isEmpty = true
      · rw [if_pos hempty] at h
        exact List.mem_cons_of_mem _ (ih h)
      · rw [if_neg hempty] at h
        simp only [dkeys, List.map_cons, List.mem_cons] at h ⊢
        rcases h with h1 | h2
        · exact Or.inl h1
        · exact Or.inr (ih (by simpa [dkeys] using h2))

/-- Inner dicts stored by the AND merge are never empty. -/
theorem ne_nil_of_mem_merge_and_mode {ld ol : LinkData δ} {p : NPObject × Links δ}
    (h : p ∈ merge_and_mode ld ol) : p.2 ≠ [] := by
  induction ld with
  | nil => simp [merge_and_mode] at h
  | cons q rest ih =>
    cases hfq : dfind q.1 ol with
    | none =>
      rw [merge_and_mode_cons_none rest hfq] at h
      exact ih h
    | some ltm =>
      rw [merge_and_mode_cons_some rest hfq] at h
      by_cases hempty :
          (mergeTargets (q.2.filter (fun q' => dcontains q'.1 ltm)) ltm).isEmpty = true
      · rw [if_pos hempty] at h
        exact ih h
      · rw [if_neg hempty] at h
        rcases List.mem_cons.mp h with h1 | h2
        · rw [h1]
          simpa [List.isEmpty_iff] using hempty
        · exact ih h2

/-- Entry-wise characterisation of `_merge_and_mode`: a `(source, target)`
pair survives exactly when both the existing aggregate and the new
results report it, and the surviving link is the existing link merged
with the new one. -/
theorem lookup2_merge_and_mode (ld ol : LinkData δ)
    (hld : NodupKeys ld)
    (hol : ∀ s links, dfind s ol = some links → NodupKeys links)
    (s t : NPObject) :
    lookup2 (merge_and_mode ld ol) s t =
      match lookup2 ld s t, lookup2 ol s t with
      | some a, some b => some (a._merge b)
      | _, _ => none := by
  induction ld with
  | nil =>
    simp only [merge_and_mode, List.filterMap_nil, lookup2, dfind, Option.bind]
  | cons p rest ih =>
    simp only [NodupKeys, dkeys, List.map_cons, List.nodup_cons] at hld
    have hrest : NodupKeys rest := hld.2
    have hp : p.1 ∉ dkeys rest := by simpa [dkeys] using hld.1
    have hnone : dfind p.1 (merge_and_mode rest ol) = none := by
      cases hmm : dfind p.1 (merge_and_mode rest ol) with
      | none => rfl
      | some v => exact absurd (mem_keys_merge_and_mode (mem_keys_of_dfind_some hmm)) hp
    cases hfp : dfind p.1 ol with
    | none =>
      rw [merge_and_mode_cons_none rest hfp]
      by_cases hsp : p.1 = s
      · subst hsp
        simp only [lookup2]
        rw [hnone, hfp]
        cases (dfind p.1 (p :: rest)).bind (fun links => dfind t links) <;> rfl
      · have hstep := ih hrest
        simp only [lookup2, dfind, if_neg hsp] at hstep ⊢
        exact hstep
    | some ltm =>
      have hltm : NodupKeys ltm := hol _ _ hfp
      rw [merge_and_mode_cons_some rest hfp]
      have hchar := dfind_mergeTargets (p.2.filter (fun q => dcontains q.1 ltm)) ltm hltm t
      rw [dfind_filter_dcontains] at hchar
      by_cases hempty :
          (mergeTargets (p.2.filter (fun q => dcontains q.1 ltm)) ltm).isEmpty = true
      · rw [if_pos hempty]
        by_cases hsp : p.1 = s
        · subst hsp
          have hhead : dfind p.1 (p :: rest) = some p.2 := by simp [dfind]
          simp only [lookup2]
          rw [hnone, hhead, hfp]
          show (none : Option (ObjectLink δ)) =
            match dfind t p.2, dfind t ltm with
            | some a, some b => some (a._merge b)
            | _, _ => none
          cases hft : dfind t p.2 with
          | none => rfl
          | some a =>
            cases hftl : dfind t ltm with
            | none => rfl
            | some b =>
              exfalso
              rw [List.isEmpty_iff] at hempty
              rw [hempty] at hchar
              simp [dcontains, hftl, hft, dfind] at hchar
        · have hstep := ih hrest
          simp only [lookup2, dfind, if_neg hsp] at hstep ⊢
          exact hstep
      · rw [if_neg hempty]
        by_cases hsp : p.1 = s
        · subst hsp
          have hhead : dfind p.1
              ((p.1, mergeTargets (p.2.filter (fun q => dcontains q.1 ltm)) ltm) ::
                merge_and_mode rest ol) =
              some (mergeTargets (p.2.filter (fun q => dcontains q.1 ltm)) ltm) := by
            simp [dfind]
          have hhead2 : dfind p.1 (p :: rest) = some p.2 := by simp [dfind]
          simp only [lookup2]
          rw [hhead, hhead2, hfp]
          show dfind t (mergeTargets (p.2.filter (fun q => dcontains q.1 ltm)) ltm) =
            match dfind t p.2, dfind t ltm with
            | some a, some b => some (a._merge b)
            | _, _ => none
          rw [hchar]
          by_cases hct : dcontains t ltm = true
          · rw [if_pos hct]
            cases hftl : dfind t ltm with
            | none => simp [dcontains, hftl] at hct
            | some b => cases dfind t p.2 <;> rfl
          · rw [if_neg hct]
            have hftl : dfind t ltm = none := by
              cases hcc : dfind t ltm with
              | none => rfl
              | some b => exact absurd (by simp [dcontains, hcc]) hct
            rw [hftl]
            cases dfind t p.2 <;> rfl
        · have hstep := ih hrest
          simp only [lookup2, dfind, if_neg hsp] at hstep ⊢
          exact hstep

/-- Entry-wise characterisation of one `_merge_or_mode` loop iteration. -/
theorem lookup2_or_step (ld : LinkData δ) (e : NPObject × Links δ)
    (he : NodupKeys e.2) (s t : NPObject) :
    lookup2 (or_step ld e) s t =
      if e.1 = s then
        match lookup2 ld s t, dfind t e.2 with
        | some a, some b => some (a._merge b)
        | some a, none => some a
        | none, some b => some (b._merge b)
        | none, none => none
      else lookup2 ld s t := by
  cases hfe : dfind e.1 ld with
  | none =>
    have hx : dfind e.1 (dinsert e.1 e.2 ld) = some e.2 := by
      simp [dfind_dinsert]
    have hld1 : or_step ld e = dinsert e.1 (mergeTargets e.2 e.2) (dinsert e.1 e.2 ld) := by
      simp only [or_step, hfe, hx]
    rw [hld1]
    by_cases hes : e.1 = s
    · subst hes
      have h1 : dfind e.1 (dinsert e.1 (mergeTargets e.2 e.2) (dinsert e.1 e.2 ld)) =
          some (mergeTargets e.2 e.2) := by simp [dfind_dinsert]
      simp only [lookup2, h1, hfe]
      simp only [if_true]
      show dfind t (mergeTargets e.2 e.2) =
        match (none : Option (ObjectLink δ)), dfind t e.2 with
        | some a, some b => some (a._merge b)
        | some a, none => some a
        | none, some b => some (b._merge b)
        | none, none => none
      rw [dfind_mergeTargets e.2 e.2 he t]
      cases dfind t e.2 <;> rfl
    · have h1 : dfind s (dinsert e.1 (mergeTargets e.2 e.2) (dinsert e.1 e.2 ld)) =
          dfind s ld := by
        rw [dfind_dinsert, if_neg hes, dfind_dinsert, if_neg hes]
      simp only [lookup2, h1]
      rw [if_neg hes]
  | some cur =>
    have hx : dfind e.1 (dinsert e.1
        (dupdate cur (e.2.filter (fun q => ! dcontains q.1 cur))) ld) =
        some (dupdate cur (e.2.filter (fun q => ! dcontains q.1 cur))) := by
      simp [dfind_dinsert]
    have hld1 : or_step ld e =
        dinsert e.1 (mergeTargets (dupdate cur (e.2.filter (fun q => ! dcontains q.1 cur))) e.2)
          (dinsert e.1 (dupdate cur (e.2.filter (fun q => ! dcontains q.1 cur))) ld) := by
      simp only [or_step, hfe, hx]
    rw [hld1]
    by_cases hes : e.1 = s
    · subst hes
      have h1 : dfind e.1 (dinsert e.1
          (mergeTargets (dupdate cur (e.2.filter (fun q => ! dcontains q.1 cur))) e.2)
          (dinsert e.1 (dupdate cur (e.2.filter (fun q => ! dcontains q.1 cur))) ld)) =
          some (mergeTargets (dupdate cur (e.2.filter (fun q => ! dcontains q.1 cur))) e.2) := by
        simp [dfind_dinsert]
      simp only [lookup2, h1, hfe]
      simp only [if_true]
      show dfind t (mergeTargets (dupdate cur (e.2.filter (fun q => ! dcontains q.1 cur))) e.2) =
        match dfind t cur, dfind t e.2 with
        | some a, some b => some (a._merge b)
        | some a, none => some a
        | none, some b => some (b._merge b)
        | none, none => none
      rw [dfind_mergeTargets _ e.2 he t]
      have hupd : dfind t (dupdate cur (e.2.filter (fun q => ! dcontains q.1 cur))) =
          match dfind t cur with
          | some a => some a
          | none => dfind t e.2 := by
        rw [dfind_dupdate _ _ _ (nodupKeys_filter _ he), dfind_filter_not_dcontains]
        cases hfc : dfind t cur with
        | some a =>
          rw [show dcontains t cur = true by simp [dcontains, hfc]]
          simp
        | none =>
          rw [show dcontains t cur = false by simp [dcontains, hfc]]
          simp only [Bool.false_eq_true, if_false]
          cases dfind t e.2 <;> rfl
      rw [hupd]
      cases hfc : dfind t cur <;> cases hfe2 : dfind t e.2 <;> rfl
    · have h1 : dfind s (dinsert e.1
          (mergeTargets (dupdate cur (e.2.filter (fun q => ! dcontains q.1 cur))) e.2)
          (dinsert e.1 (dupdate cur (e.2.filter (fun q => ! dcontains q.1 cur))) ld)) =
          dfind s ld := by
        rw [dfind_dinsert, if_neg hes, dfind_dinsert, if_neg hes]
      simp only [lookup2, h1]
      rw [if_neg hes]

/-- Sources after one OR-mode iteration: the existing sources plus the
new item\'s source. -/
theorem dcontains_or_step (ld : LinkData δ) (e : NPObject × Links δ) (s : NPObject) :
    dcontains s (or_step ld e) = (dcontains s ld || decide (e.1 = s)) := by
  cases hfe : dfind e.1 ld with
  | none =>
    have hx : dfind e.1 (dinsert e.1 e.2 ld) = some e.2 := by
      simp [dfind_dinsert]
    have hld1 : or_step ld e = dinsert e.1 (mergeTargets e.2 e.2) (dinsert e.1 e.2 ld) := by
      simp only [or_step, hfe, hx]
    rw [hld1]
    simp only [dcontains_dinsert]
    by_cases hes : e.1 = s <;> simp [hes]
  | some cur =>
    have hx : dfind e.1 (dinsert e.1
        (dupdate cur (e.2.filter (fun q => ! dcontains q.1 cur))) ld) =
        some (dupdate cur (e.2.filter (fun q => ! dcontains q.1 cur))) := by
      simp [dfind_dinsert]
    have hld1 : or_step ld e =
        dinsert e.1 (mergeTargets (dupdate cur (e.2.filter (fun q => ! dcontains q.1 cur))) e.2)
          (dinsert e.1 (dupdate cur (e.2.filter (fun q => ! dcontains q.1 cur))) ld) := by
      simp only [or_step, hfe, hx]
    rw [hld1]
    simp only [dcontains_dinsert]
    by_cases hes : e.1 = s <;> simp [hes]

/-- Entry-wise characterisation of `_merge_or_mode`: all pairs from both
sides are kept; a pair present in both gets the existing link merged with
the new one; a pair only in the new results gets the new link merged with
itself (the loop runs `_merge` on it unconditionally). -/
theorem lookup2_merge_or_mode (ld ol : LinkData δ)
    (hol : NodupKeys ol)
    (holin : ∀ p, p ∈ ol → NodupKeys p.2)
    (s t : NPObject) :
    lookup2 (merge_or_mode ld ol) s t =
      match lookup2 ld s t, lookup2 ol s t with
      | some a, some b => some (a._merge b)
      | some a, none => some a
      | none, some b => some (b._merge b)
      | none, none => none := by
  induction ol generalizing ld with
  | nil =>
    show lookup2 ld s t =
      match lookup2 ld s t, lookup2 ([] : LinkData δ) s t with
      | some a, some b => some (a._merge b)
      | some a, none => some a
      | none, some b => some (b._merge b)
      | none, none => none
    cases lookup2 ld s t <;> rfl
  | cons e rest ih =>
    simp only [NodupKeys, dkeys, List.map_cons, List.nodup_cons] at hol
    have hrest : NodupKeys rest := hol.2
    have he : e.1 ∉ dkeys rest := by simpa [dkeys] using hol.1
    have hee : NodupKeys e.2 := holin e (List.mem_cons_self _ _)
    have hrestin : ∀ p, p ∈ rest → NodupKeys p.2 :=
      fun p hp => holin p (List.mem_cons_of_mem _ hp)
    simp only [merge_or_mode, List.foldl_cons]
    rw [show (rest.foldl or_step (or_step ld e)) = merge_or_mode (or_step ld e) rest from rfl]
    rw [ih _ hrest hrestin]
    rw [lookup2_or_step ld e hee s t]
    by_cases hes : e.1 = s
    · subst hes
      have hfe : dfind e.1 rest = none := dfind_eq_none_of_not_mem_keys he
      have hr2 : lookup2 rest e.1 t = none := by simp [lookup2, hfe]
      have hr3 : lookup2 (e :: rest) e.1 t = dfind t e.2 := by simp [lookup2, dfind]
      rw [if_pos rfl, hr2, hr3]
      cases ha : lookup2 ld e.1 t <;> cases hb : dfind t e.2 <;> rfl
    · rw [if_neg hes]
      have hskip : dfind s (e :: rest) = dfind s rest := by simp [dfind, hes]
      simp only [lookup2, hskip]

/-- Well-formedness of a `_link_data`-shaped dict: no duplicate source
keys, and no duplicate target keys inside any inner dict.  Every dict a
Python program builds satisfies this. -/
def WFLinkData {δ' : Type} (ld : LinkData δ') : Prop :=
  NodupKeys ld ∧ ∀ p, p ∈ ld → NodupKeys p.2

instance {δ' : Type} (ld : LinkData δ') : Decidable (WFLinkData ld) := by
  unfold WFLinkData; infer_instance

theorem wf_inner_of_dfind {δ' : Type} {ld : LinkData δ'} {s : NPObject}
    {links : Links δ'} (hwf : WFLinkData ld) (h : dfind s ld = some links) :
    NodupKeys links :=
  hwf.2 _ (mem_of_dfind_some h)

theorem nodupKeys_merge_and_mode {ld ol : LinkData δ} (hld : NodupKeys ld) :
    NodupKeys (merge_and_mode ld ol) := by
  induction ld with
  | nil => simp [merge_and_mode, NodupKeys, dkeys]
  | cons p rest ih =>
    simp only [NodupKeys, dkeys, List.map_cons, List.nodup_cons] at hld
    have hrest := ih hld.2
    cases hfp : dfind p.1 ol with
    | none => rw [merge_and_mode_cons_none rest hfp]; exact hrest
    | some ltm =>
      rw [merge_and_mode_cons_some rest hfp]
      by_cases hempty :
          (mergeTargets (p.2.filter (fun q => dcontains q.1 ltm)) ltm).isEmpty = true
      · rw [if_pos hempty]; exact hrest
      · rw [if_neg hempty]
        simp only [NodupKeys, dkeys, List.map_cons, List.nodup_cons]
        refine ⟨fun hmem => ?_, hrest⟩
        exact hld.1 (by simpa [dkeys] using mem_keys_merge_and_mode (by simpa [dkeys] using hmem))

theorem wf_merge_and_mode {ld ol : LinkData δ} (hld : WFLinkData ld) :
    WFLinkData (merge_and_mode ld ol) := by
  refine ⟨nodupKeys_merge_and_mode hld.1, ?_⟩
  intro p hp
  have hld2 := hld.2
  induction ld with
  | nil => simp [merge_and_mode] at hp
  | cons q rest ih =>
    have hqwf : NodupKeys q.2 := hld2 q (List.mem_cons_self _ _)
    have hrest2 : ∀ r, r ∈ rest → NodupKeys r.2 :=
      fun r hr => hld2 r (List.mem_cons_of_mem _ hr)
    have hrestn : NodupKeys rest := by
      have := hld.1
      simp only [NodupKeys, dkeys, List.map_cons, List.nodup_cons] at this
      exact this.2
    cases hfq : dfind q.1 ol with
    | none =>
      rw [merge_and_mode_cons_none rest hfq] at hp
      exact ih (by
        constructor
        · exact hrestn
        · exact hrest2) hp hrest2
    | some ltm =>
      rw [merge_and_mode_cons_some rest hfq] at hp
      by_cases hempty :
          (mergeTargets (q.2.filter (fun q' => dcontains q'.1 ltm)) ltm).isEmpty = true
      · rw [if_pos hempty] at hp
        exact ih (by
          constructor
          · exact hrestn
          · exact hrest2) hp hrest2
      · rw [if_neg hempty] at hp
        rcases List.mem_cons.mp hp with h1 | h2
        · rw [h1]
          show NodupKeys (mergeTargets (q.2.filter (fun q' => dcontains q'.1 ltm)) ltm)
          unfold NodupKeys
          rw [dkeys_mergeTargets]
          exact nodupKeys_filter _ hqwf
        · exact ih (by
            constructor
            · exact hrestn
            · exact hrest2) h2 hrest2

/-- Source-level characterisation of the AND merge: a source survives
exactly when some pair under it survives. -/
theorem dcontains_merge_and_mode_iff {ld ol : LinkData δ}
    (hld : NodupKeys ld)
    (hol : ∀ s links, dfind s ol = some links → NodupKeys links)
    (s : NPObject) :
    dcontains s (merge_and_mode ld ol) = true ↔
      ∃ t a b, lookup2 ld s t = some a ∧ lookup2 ol s t = some b := by
  constructor
  · intro h
    simp only [dcontains, Option.isSome_iff_exists] at h
    obtain ⟨links, hlinks⟩ := h
    have hne : links ≠ [] :=
      ne_nil_of_mem_merge_and_mode (mem_of_dfind_some hlinks)
    obtain ⟨q, rest, hq⟩ := List.exists_cons_of_ne_nil hne
    have hqfind : dfind q.1 links = some q.2 := by
      rw [hq]; simp [dfind]
    have hl2 : lookup2 (merge_and_mode ld ol) s q.1 = some q.2 := by
      simp [lookup2, hlinks, hqfind]
    rw [lookup2_merge_and_mode ld ol hld hol s q.1] at hl2
    cases ha : lookup2 ld s q.1 with
    | none => rw [ha] at hl2; simp at hl2
    | some a =>
      cases hb : lookup2 ol s q.1 with
      | none => rw [ha, hb] at hl2; simp at hl2
      | some b => exact ⟨q.1, a, b, ha, hb⟩
  · intro ⟨t, a, b, ha, hb⟩
    have := lookup2_merge_and_mode ld ol hld hol s t
    rw [ha, hb] at this
    simp only [lookup2] at this
    cases hf : dfind s (merge_and_mode ld ol) with
    | none => rw [hf] at this; simp at this
    | some links => simp [dcontains, hf]

/-- Sources after an OR merge are the union of both key sets. -/
theorem dcontains_merge_or_mode (ld ol : LinkData δ) (s : NPObject) :
    dcontains s (merge_or_mode ld ol) = (dcontains s ld || dcontains s ol) := by
  induction ol generalizing ld with
  | nil => simp [merge_or_mode, dcontains, dfind]
  | cons e rest ih =>
    simp only [merge_or_mode, List.foldl_cons]
    rw [show (rest.foldl or_step (or_step ld e)) = merge_or_mode (or_step ld e) rest from rfl]
    rw [ih, dcontains_or_step]
    by_cases hes : e.1 = s
    · simp [dcontains, dfind, hes]
    · simp [dcontains, dfind, hes]

end MergeLemmas

/-! ## MetcalfScoring (`methods.py` lines 417-676) -/

/-- The retention test `self.cutoff is None or (final_score >= self.cutoff)`. -/
def cutoffKeep (cutoff : Option ℚ) (final_score : ℚ) : Bool :=
  match cutoff with
  | none => true
  | some c => decide (final_score ≥ c)

/-- The shared row loop of both standardisation passes: standardise each
`(src, dst, score)` triple with the z-function and keep it when the
cutoff test passes. -/
def stdFilterRow (zf : Nat → Nat → ℚ → ℚ) (cutoff : Option ℚ)
    (results : List (Nat × Nat × ℚ)) : List (Nat × Nat × ℚ) :=
  results.filterMap (fun r =>
    let final_score := zf r.1 r.2.1 r.2.2
    if cutoffKeep cutoff final_score then some (r.1, r.2.1, final_score) else none)

/-- `_metcalf_postprocess_met` (lines 482-517): rows are
(metabolomic id, GCF id, raw score); `met_strains`/`gen_strains` give
`len(obj.strains)` for the id on each side, `expected`/`variance_sqrt`
are the `linkfinder` lookup tables, and the standardised score is
`(raw - expected[m][g]) / variance_sqrt[m][g]`.  The backend result is a
one-element list of row arrays. -/
def metcalf_postprocess_met (expected variance_sqrt : Nat → Nat → ℚ)
    (met_strains gen_strains : Nat → Nat) (cutoff : Option ℚ)
    (results : List (List (Nat × Nat × ℚ))) : List (List (Nat × Nat × ℚ)) :=
  [stdFilterRow
    (fun src dst s =>
      (s - expected (met_strains src) (gen_strains dst)) /
        variance_sqrt (met_strains src) (gen_strains dst))
    cutoff (results.getD 0 [])]

/-- `_metcalf_postprocess_gen` (lines 519-561): rows are
(GCF id, metabolomic id, raw score); the first row array holds
GCF-Spectrum links, the second GCF-MolecularFamily links, so the
metabolomic strain count comes from the spectra table for the first and
the molecular-family table for the second. -/
def metcalf_postprocess_gen (expected variance_sqrt : Nat → Nat → ℚ)
    (specStrains famStrains gen_strains : Nat → Nat) (cutoff : Option ℚ)
    (results : List (List (Nat × Nat × ℚ))) : List (List (Nat × Nat × ℚ)) :=
  [stdFilterRow
    (fun src dst s =>
      (s - expected (specStrains dst) (gen_strains src)) /
        variance_sqrt (specStrains dst) (gen_strains src))
    cutoff (results.getD 0 []),
   stdFilterRow
    (fun src dst s =>
      (s - expected (famStrains dst) (gen_strains src)) /
        variance_sqrt (famStrains dst) (gen_strains src))
    cutoff (results.getD 1 [])]

/-! ### `MetcalfScoring.setup` (lines 434-476)

`DataLinks`/`LinkFinder` are opaque structures built by the external
correlation backend; the setup logic only moves them around, so they are
type parameters here.  The cache file on disk is either absent, present
but failing to deserialize (`load_pickled_data` returns `None`), or a
valid `(counts, datalinks, linkfinder)` tuple. -/

inductive CacheFile (σ τ : Type) : Type
  | absent
  | corrupt
  | valid (counts : List Nat) (datalinks : σ) (linkfinder : τ)

/-- The invalidation loop `for i in range(len(counts)): if counts[i] !=
dataset_counts[i]: cache_ok = False`. -/
def countsMatch (counts dataset_counts : List Nat) : Bool :=
  (List.range counts.length).all
    (fun i => decide (counts.getD i 0 = dataset_counts.getD i 0))

/-- `MetcalfScoring.setup` from the uninitialised state (`DATALINKS is
None` on entry).  Returns the final `(DATALINKS, LINKFINDER)` pair and
`some written_tuple` when the recompute path persisted to the cache file
(`none` when the cached data was reused).  `freshDL`/`freshLF` stand for
the structures the correlation backend would compute from the current
dataset. -/
def metcalf_setup {σ τ : Type} (cache_file : CacheFile σ τ)
    (dataset_counts : List Nat) (freshDL : σ) (freshLF : τ) :
    (σ × τ) × Option (List Nat × σ × τ) :=
  let loaded : Option σ × Option τ :=
    match cache_file with
    | CacheFile.absent => (none, none)
    | CacheFile.corrupt => (none, none)
    | CacheFile.valid counts datalinks linkfinder =>
      if countsMatch counts dataset_counts then (some datalinks, some linkfinder)
      else (none, none)
  match loaded with
  | (some datalinks, some linkfinder) => ((datalinks, linkfinder), none)
  | _ => ((freshDL, freshLF), some (dataset_counts, freshDL, freshLF))

/-! ### `MetcalfScoring.get_links` (lines 563-668) -/

/-- Per-instance configuration of a `MetcalfScoring` object. -/
structure MetcalfCfg : Type where
  methodId : Nat
  cutoff : Option ℚ
  standardised : Bool

/-- The external data `get_links` consults: the correlation backend
(`LINKFINDER.get_links`, returning one row array for metabolomic input
and two for GCF input), its lookup tables, and the id-indexed object
universes with their strain counts. -/
structure MetcalfEnv : Type where
  lfGetLinks : List NPObject → Option ℚ → List (List (Nat × Nat × ℚ))
  metcalf_expected : Nat → Nat → ℚ
  metcalf_variance_sqrt : Nat → Nat → ℚ
  spectra : Nat → NPObject
  gcfs : Nat → NPObject
  molfams : Nat → NPObject
  specStrains : Nat → Nat
  famStrains : Nat → Nat
  gcfStrains : Nat → Nat

/-- Result assembly for GCF input (lines 605-633): the two row arrays
hold GCF-Spectrum and GCF-MolecularFamily links; each row becomes
`metcalf_results[gcf][obj] = ObjectLink(gcf, obj, self, score)`. -/
def metcalfBuildGcf (methodId : Nat) (env : MetcalfEnv)
    (result_gcf_spec result_gcf_fam : List (Nat × Nat × ℚ)) : LinkData ℚ :=
  let step := fun (lookupObj : Nat → NPObject) (acc : LinkData ℚ) (r : Nat × Nat × ℚ) =>
    let obj := lookupObj r.2.1
    let gcf := env.gcfs r.1
    let cur := match dfind gcf acc with
      | some c => c
      | none => []
    dinsert gcf (dinsert obj (ObjectLink.mk' gcf obj methodId r.2.2) cur) acc
  result_gcf_fam.foldl (step env.molfams)
    (result_gcf_spec.foldl (step env.spectra) [])

/-- Result assembly for Spectrum/MolecularFamily input (lines 635-663):
each row becomes `metcalf_results[obj][gcf] = ObjectLink(obj, gcf, self,
score)`. -/
def metcalfBuildMet (methodId : Nat) (env : MetcalfEnv) (inputKind : ObjKind)
    (results : List (Nat × Nat × ℚ)) : LinkData ℚ :=
  results.foldl (fun acc r =>
    let gcf := env.gcfs r.2.1
    let obj := if inputKind = ObjKind.spectrum then env.spectra r.1 else env.molfams r.1
    let cur := match dfind obj acc with
      | some c => c
      | none => []
    dinsert obj (dinsert gcf (ObjectLink.mk' obj gcf methodId r.2.2) cur) acc) []

/-- `MetcalfScoring.get_links`.  Guards first: the input list must be
non-empty (Python would raise `IndexError` on `objects[0]`), type
homogeneous, and not of kind BGC.  Then the backend raw scores are
fetched (with the cutoff suppressed when standardising), standardised
when configured, assembled into a source-to-target mapping and added to
the collection.  Raising is modelled by `Except.error` before any use of
`lc`. -/
def metcalf_get_links (cfg : MetcalfCfg) (env : MetcalfEnv)
    (objects : List NPObject) (lc : LinkCollection ℚ) :
    Except String (LinkCollection ℚ) :=
  match objects with
  | [] => Except.error "IndexError: objects is empty"
  | o :: _ =>
    if ¬ objects.all (fun x => x.kind = o.kind) then
      Except.error "MetcalfScoring: uniformly-typed list of objects is required"
    else if o.kind = ObjKind.bgc then
      Except.error "MetcalfScoring requires input type GCF/Spectrum/MolecularFamily, not BGC"
    else
      let results :=
        if ¬ cfg.standardised then env.lfGetLinks objects cfg.cutoff
        else
          let raw := env.lfGetLinks objects none
          if ¬ (o.kind = ObjKind.gcf) then
            metcalf_postprocess_met env.metcalf_expected env.metcalf_variance_sqrt
              (if o.kind = ObjKind.spectrum then env.specStrains else env.famStrains)
              env.gcfStrains cfg.cutoff raw
          else
            metcalf_postprocess_gen env.metcalf_expected env.metcalf_variance_sqrt
              env.specStrains env.famStrains env.gcfStrains cfg.cutoff raw
      let metcalf_results :=
        if o.kind = ObjKind.gcf then
          metcalfBuildGcf cfg.methodId env (results.getD 0 []) (results.getD 1 [])
        else
          metcalfBuildMet cfg.methodId env o.kind (results.getD 0 [])
      add_links_from_method lc cfg.methodId metcalf_results

/-! ## RosettaScoring (`methods.py` lines 314-415) -/

/-- A hit record produced by the external Rosetta matcher: the matched
Spectrum and BGC objects and the two per-side match scores. -/
structure RosettaHit : Type where
  spec : NPObject
  bgc : NPObject
  spec_match_score : ℚ
  bgc_match_score : ℚ
deriving DecidableEq

/-- Per-instance configuration of a `RosettaScoring` object. -/
structure RosettaCfg : Type where
  methodId : Nat
  bgc_to_gcf : Bool
  spec_score_cutoff : ℚ
  bgc_score_cutoff : ℚ

/-- `_include_hit` (lines 347-351). -/
def include_hit (cfg : RosettaCfg) (hit : RosettaHit) : Bool :=
  if hit.spec_match_score < cfg.spec_score_cutoff ∨
      hit.bgc_match_score < cfg.bgc_score_cutoff then
    false
  else
    true

/-- The accumulation step shared by both dispatch branches: append the
hit to the method payload when the `(src, target)` pair already exists
(`set_data(self, original_data + [hit])`), else create a fresh
`ObjectLink` with payload `[hit]`. -/
def rosettaAccumulate (methodId : Nat) (res : LinkData (List RosettaHit))
    (src target : NPObject) (srcObj : NPObject) (hit : RosettaHit) :
    LinkData (List RosettaHit) :=
  let cur := match dfind src res with
    | some c => c
    | none => []
  let newLink :=
    match dfind target cur with
    | some ol =>
      let original_data :=
        match dfind methodId ol.method_data with
        | some d => d
        | none => []
      { ol with method_data := dinsert methodId (original_data ++ [hit]) ol.method_data }
    | none => ObjectLink.mk' srcObj target methodId [hit]
  dinsert src (dinsert target newLink cur) res

/-- `RosettaScoring.get_links` (lines 353-407).  `parentOf` is
`bgc.parent` (the owning GCF); `bgcsOf` is `gcf.bgcs`; `ro_hits` is the
process-wide hit list built by `setup`.  GCF input is expanded to the
set of member BGCs (`list(set(chain(...)))` — dedup keeping first
occurrence here, the Python set order being arbitrary). -/
def rosetta_get_links (cfg : RosettaCfg) (ro_hits : List RosettaHit)
    (parentOf : NPObject → NPObject) (bgcsOf : NPObject → List NPObject)
    (objects : List NPObject) (lc : LinkCollection (List RosettaHit)) :
    Except String (LinkCollection (List RosettaHit)) :=
  match objects with
  | [] => Except.error "IndexError: objects is empty"
  | o :: _ =>
    if ¬ objects.all (fun x => x.kind = o.kind) then
      Except.error "RosettaScoring: uniformly-typed list of objects is required"
    else if o.kind = ObjKind.molecularFamily then
      Except.error "RosettaScoring requires input type Spectrum (found MolecularFamily)"
    else
      let objects2 :=
        if o.kind = ObjKind.gcf then ((objects.map bgcsOf).flatten).dedup else objects
      let filtered_hits := ro_hits.filter (fun hit => include_hit cfg hit)
      match objects2 with
      | [] => Except.error "IndexError: objects is empty after GCF expansion"
      | o2 :: _ =>
        let results :=
          if o2.kind = ObjKind.bgc then
            objects2.foldl (fun res bgc =>
              filtered_hits.foldl (fun res hit =>
                if bgc.id = hit.bgc.id then
                  let src := if cfg.bgc_to_gcf then parentOf bgc else bgc
                  rosettaAccumulate cfg.methodId res src hit.spec src hit
                else res) res) []
          else
            objects2.foldl (fun res spec =>
              filtered_hits.foldl (fun res hit =>
                if spec.id = hit.spec.id then
                  let target := if cfg.bgc_to_gcf then parentOf hit.bgc else hit.bgc
                  rosettaAccumulate cfg.methodId res spec target spec hit
                else res) res) []
        add_links_from_method lc cfg.methodId results

/-! ## TestScoring (`methods.py` lines 279-312)

`TestScoring.get_links` first runs its internal `MetcalfScoring` on the
same collection (which adds the Metcalf results to it), keeps the first
`int(len * value)` sources of the collection, replaces each kept link\'s
payload (`link._method_data[self] = random.random()` then
`del link._method_data[self.mc]`) — mutating the `ObjectLink` objects
that live inside the collection — and finally adds the truncated mapping
under its own identity.  `mcResults` stands for the mapping the internal
Metcalf instance computes, and `rand` for the drawn random values. -/
def test_get_links (selfId mcId : Nat) (value : ℚ)
    (rand : NPObject → NPObject → ℚ) (mcResults : LinkData ℚ)
    (lc : LinkCollection ℚ) : Except String (LinkCollection ℚ) :=
  match add_links_from_method lc mcId mcResults with
  | Except.error e => Except.error e
  | Except.ok mcColl =>
    let num_to_keep := (((mcColl.link_data.length : ℚ) * value).floor).toNat
    let results := (mcColl.link_data.take num_to_keep).map (fun p =>
      (p.1, p.2.map (fun q =>
        let md := ddel mcId (dinsert selfId (rand p.1 q.1) q.2.method_data)
        (q.1, { q.2 with method_data := md }))))
    let mcColl2 := { mcColl with
      link_data := results ++ mcColl.link_data.drop num_to_keep }
    add_links_from_method mcColl2 selfId results

/-! ## The `ObjectLink.__init__` default argument (`methods.py` line 214)

`def __init__(self, source, target, method, data=None, shared_strains=[])`
— Python evaluates the default expression `[]` once, when the `def`
statement runs, and every later call that omits the argument binds the
very same list object.  To express this aliasing the shared-strains
lists live in an explicit heap and an `ObjectLink` holds a reference. -/

structure PyHeap : Type where
  lists : List (List Nat)
deriving DecidableEq

/-- Allocate a fresh list object, returning its reference. -/
def heapAlloc (h : PyHeap) (v : List Nat) : PyHeap × Nat :=
  ({ lists := h.lists ++ [v] }, h.lists.length)

/-- Dereference a list object. -/
def heapGet (h : PyHeap) (r : Nat) : List Nat :=
  h.lists.getD r []

/-- Overwrite a list object in place. -/
def heapSet (h : PyHeap) (r : Nat) (v : List Nat) : PyHeap :=
  { lists := h.lists.set r v }

/-- An `ObjectLink` as allocated by `__init__`, with `shared_strains`
held by reference. -/
structure ObjectLinkRef : Type where
  source : Nat
  target : Nat
  shared_strains : Nat
deriving DecidableEq

/-- Executing the `def __init__(...)` line: the default `[]` for
`shared_strains` is evaluated once, here. -/
def objectLinkClassDef (h : PyHeap) : PyHeap × Nat :=
  heapAlloc h []

/-- Calling `ObjectLink(source, target, method, data[, shared_strains])`:
when the caller omits `shared_strains`, `self.shared_strains` is bound to
the one default list allocated at `def` time. -/
def objectLinkInitRef (defaultRef : Nat) (h : PyHeap) (source target : Nat)
    (shared_strains : Option Nat) : PyHeap × ObjectLinkRef :=
  (h, { source := source, target := target,
        shared_strains := shared_strains.getD defaultRef })

/-- `link.shared_strains.append(strain)` — mutates the referenced list. -/
def appendSharedStrain (h : PyHeap) (link : ObjectLinkRef) (strain : Nat) : PyHeap :=
  heapSet h link.shared_strains (heapGet h link.shared_strains ++ [strain])

/-! ## Demonstration data shared by the concrete witnesses -/

def gcf1 : NPObject := ⟨ObjKind.gcf, 1⟩
def gcf2 : NPObject := ⟨ObjKind.gcf, 2⟩
def spec1 : NPObject := ⟨ObjKind.spectrum, 1⟩
def spec2 : NPObject := ⟨ObjKind.spectrum, 2⟩
def spec3 : NPObject := ⟨ObjKind.spectrum, 3⟩

/-- Method 1\'s results `A = {s1: {t1, t2}}` from the C1 example. -/
def demoA : LinkData Nat :=
  [(gcf1, [(spec1, ObjectLink.mk' gcf1 spec1 1 10),
           (spec2, ObjectLink.mk' gcf1 spec2 1 11)])]

/-- Method 2\'s results `B = {s1: {t2, t3}}` from the C1 example. -/
def demoB : LinkData Nat :=
  [(gcf1, [(spec2, ObjectLink.mk' gcf1 spec2 2 20),
           (spec3, ObjectLink.mk' gcf1 spec3 2 21)])]

/-! ## Claim theorems -/

/-- C1: for an AND-mode `LinkCollection`, after a first method\'s result
mapping `A` is stored and a second method\'s mapping `B` is added via
`_add_links_from_method`, a `(source, target)` pair is present exactly
when both `A` and `B` contain it, the stored link being the existing one
merged with the new one, and a source is present exactly when at least
one of its pairs survives (sources with zero surviving targets are
removed). -/
theorem C1_and_merge_intersection {δ : Type} (m1 m2 : Nat) (hm : m1 ≠ m2)
    (A B : LinkData δ) (hA : NodupKeys A) (hB : ∀ p ∈ B, NodupKeys p.2)
    {lc1 lc2 : LinkCollection δ}
    (h1 : add_links_from_method ⟨[], [], true⟩ m1 A = Except.ok lc1)
    (h2 : add_links_from_method lc1 m2 B = Except.ok lc2) :
    (∀ s t, lookup2 lc2.link_data s t =
      match lookup2 A s t, lookup2 B s t with
      | some a, some b => some (a._merge b)
      | _, _ => none) ∧
    (∀ s, dcontains s lc2.link_data = true ↔
      ∃ t a b, lookup2 A s t = some a ∧ lookup2 B s t = some b) := by
  have hB2 : ∀ s links, dfind s B = some links → NodupKeys links :=
    fun s links hf => hB _ (mem_of_dfind_some hf)
  have hlc1 : lc1 = ⟨[m1], A, true⟩ :=
    (Except.ok.inj ((rfl :
      add_links_from_method (⟨[], [], true⟩ : LinkCollection δ) m1 A =
        Except.ok ⟨[m1], A, true⟩).symm.trans h1)).symm
  subst hlc1
  have hcontains : ([m1].contains m2) = false := by
    simp only [List.contains_cons, List.contains_nil, Bool.or_false, beq_eq_false_iff_ne]
    exact fun h => hm h.symm
  have hcomp : add_links_from_method (⟨[m1], A, true⟩ : LinkCollection δ) m2 B =
      Except.ok ⟨[m1, m2], merge_and_mode A B, true⟩ := by
    unfold add_links_from_method
    rw [hcontains]
    rfl
  have hlc2 : lc2 = ⟨[m1, m2], merge_and_mode A B, true⟩ :=
    (Except.ok.inj (hcomp.symm.trans h2)).symm
  subst hlc2
  constructor
  · exact fun s t => lookup2_merge_and_mode A B hA hB2 s t
  · exact fun s => dcontains_merge_and_mode_iff hA hB2 s

/-- C1 witness: the claim\'s own example — `A = {s1: {t1, t2}}`,
`B = {s1: {t2, t3}}` gives exactly `{s1: {t2}}` with the merged link. -/
theorem C1_and_merge_intersection_witness :
    ∃ lc1 lc2 : LinkCollection Nat,
      add_links_from_method ⟨[], [], true⟩ 1 demoA = Except.ok lc1 ∧
      add_links_from_method lc1 2 demoB = Except.ok lc2 ∧
      lookup2 lc2.link_data gcf1 spec2 =
        some ((ObjectLink.mk' gcf1 spec2 1 11)._merge (ObjectLink.mk' gcf1 spec2 2 20)) ∧
      lookup2 lc2.link_data gcf1 spec1 = none ∧
      lookup2 lc2.link_data gcf1 spec3 = none ∧
      dcontains gcf1 lc2.link_data = true := by
  have h1 : add_links_from_method (⟨[], [], true⟩ : LinkCollection Nat) 1 demoA =
      Except.ok ⟨[1], demoA, true⟩ := by rfl
  have h2 : add_links_from_method (⟨[1], demoA, true⟩ : LinkCollection Nat) 2 demoB =
      Except.ok ⟨[1, 2], merge_and_mode demoA demoB, true⟩ := by rfl
  obtain ⟨hpair, hcont⟩ :=
    C1_and_merge_intersection 1 2 (by decide) demoA demoB (by decide) (by decide) h1 h2
  refine ⟨_, _, h1, h2, ?_, ?_, ?_, ?_⟩
  · rw [hpair gcf1 spec2]; decide
  · rw [hpair gcf1 spec1]; decide
  · rw [hpair gcf1 spec3]; decide
  · exact (hcont gcf1).mpr ⟨spec2, ObjectLink.mk' gcf1 spec2 1 11,
      ObjectLink.mk' gcf1 spec2 2 20, by decide, by decide⟩

/-- C2: for an OR-mode `LinkCollection`, after mappings `A` then `B` are
added via `_add_links_from_method`, the sources are
`sources(A) ∪ sources(B)`, the pairs are the union of both pair sets,
and a pair present in both holds the link of `A` merged with the link of
`B` (the per-method payload union). -/
theorem C2_or_merge_union {δ : Type} (m1 m2 : Nat) (hm : m1 ≠ m2)
    (A B : LinkData δ) (hB : NodupKeys B) (hBin : ∀ p ∈ B, NodupKeys p.2)
    {lc1 lc2 : LinkCollection δ}
    (h1 : add_links_from_method ⟨[], [], false⟩ m1 A = Except.ok lc1)
    (h2 : add_links_from_method lc1 m2 B = Except.ok lc2) :
    (∀ s, dcontains s lc2.link_data = (dcontains s A || dcontains s B)) ∧
    (∀ s t, (lookup2 lc2.link_data s t).isSome =
      ((lookup2 A s t).isSome || (lookup2 B s t).isSome)) ∧
    (∀ s t a b, lookup2 A s t = some a → lookup2 B s t = some b →
      lookup2 lc2.link_data s t = some (a._merge b)) := by
  have hlc1 : lc1 = ⟨[m1], A, false⟩ :=
    (Except.ok.inj ((rfl :
      add_links_from_method (⟨[], [], false⟩ : LinkCollection δ) m1 A =
        Except.ok ⟨[m1], A, false⟩).symm.trans h1)).symm
  subst hlc1
  have hcontains : ([m1].contains m2) = false := by
    simp only [List.contains_cons, List.contains_nil, Bool.or_false, beq_eq_false_iff_ne]
    exact fun h => hm h.symm
  have hcomp : add_links_from_method (⟨[m1], A, false⟩ : LinkCollection δ) m2 B =
      Except.ok ⟨[m1, m2], merge_or_mode A B, false⟩ := by
    unfold add_links_from_method
    rw [hcontains]
    rfl
  have hlc2 : lc2 = ⟨[m1, m2], merge_or_mode A B, false⟩ :=
    (Except.ok.inj (hcomp.symm.trans h2)).symm
  subst hlc2
  refine ⟨fun s => dcontains_merge_or_mode A B s, fun s t => ?_, fun s t a b ha hb => ?_⟩
  · rw [show lookup2 (LinkCollection.mk [m1, m2] (merge_or_mode A B) false).link_data s t =
        lookup2 (merge_or_mode A B) s t from rfl]
    rw [lookup2_merge_or_mode A B hB hBin s t]
    cases lookup2 A s t <;> cases lookup2 B s t <;> rfl
  · rw [show lookup2 (LinkCollection.mk [m1, m2] (merge_or_mode A B) false).link_data s t =
        lookup2 (merge_or_mode A B) s t from rfl]
    rw [lookup2_merge_or_mode A B hB hBin s t, ha, hb]

/-- C2 witness: the same example data in OR mode — all of `t1`, `t2`,
`t3` survive under `s1` and the `t2` link is the merge of both. -/
theorem C2_or_merge_union_witness :
    ∃ lc1 lc2 : LinkCollection Nat,
      add_links_from_method ⟨[], [], false⟩ 1 demoA = Except.ok lc1 ∧
      add_links_from_method lc1 2 demoB = Except.ok lc2 ∧
      dcontains gcf1 lc2.link_data = true ∧
      (lookup2 lc2.link_data gcf1 spec1).isSome = true ∧
      (lookup2 lc2.link_data gcf1 spec3).isSome = true ∧
      lookup2 lc2.link_data gcf1 spec2 =
        some ((ObjectLink.mk' gcf1 spec2 1 11)._merge (ObjectLink.mk' gcf1 spec2 2 20)) := by
  have h1 : add_links_from_method (⟨[], [], false⟩ : LinkCollection Nat) 1 demoA =
      Except.ok ⟨[1], demoA, false⟩ := by rfl
  have h2 : add_links_from_method (⟨[1], demoA, false⟩ : LinkCollection Nat) 2 demoB =
      Except.ok ⟨[1, 2], merge_or_mode demoA demoB, false⟩ := by rfl
  obtain ⟨hsrc, hpairs, hmerge⟩ :=
    C2_or_merge_union 1 2 (by decide) demoA demoB (by decide) (by decide) h1 h2
  refine ⟨_, _, h1, h2, ?_, ?_, ?_, ?_⟩
  · rw [hsrc gcf1]; decide
  · rw [hpairs gcf1 spec1]; decide
  · rw [hpairs gcf1 spec3]; decide
  · exact hmerge gcf1 spec2 (ObjectLink.mk' gcf1 spec2 1 11)
      (ObjectLink.mk' gcf1 spec2 2 20) (by decide) (by decide)

/-! ### C3: the AND-mode payload invariant -/

/-- Running a sequence of `method.get_links`-style contributions through
`_add_links_from_method`, in order (`Except.error` aborts). -/
def add_all {δ : Type} (lc : LinkCollection δ) :
    List (Nat × LinkData δ) → Except String (LinkCollection δ)
  | [] => Except.ok lc
  | c :: rest =>
    match add_links_from_method lc c.1 c.2 with
    | Except.error e => Except.error e
    | Except.ok lc2 => add_all lc2 rest

/-- One `_add_links_from_method` step in AND mode preserves the payload
invariant: every surviving link holds data for every contributing
method.  The precondition on the contribution is that each of its links
carries data for the contributing method. -/
theorem add_step_preserves {δ : Type} {lc lc' : LinkCollection δ} {m : Nat}
    {ol : LinkData δ}
    (hand : lc.and_mode = true)
    (hwf : WFLinkData lc.link_data)
    (hwfol : WFLinkData ol)
    (hP : ∀ s t l, lookup2 lc.link_data s t = some l →
      ∀ mm, mm ∈ lc.methods → dcontains mm l.method_data = true)
    (hpre : ∀ p ∈ ol, ∀ q ∈ p.2, dcontains m q.2.method_data = true)
    (h : add_links_from_method lc m ol = Except.ok lc') :
    lc'.and_mode = true ∧ WFLinkData lc'.link_data ∧
    lc'.methods = lc.methods ++ [m] ∧
    (∀ s t l, lookup2 lc'.link_data s t = some l →
      ∀ mm, mm ∈ lc'.methods → dcontains mm l.method_data = true) := by
  have hpre2 : ∀ s t l, lookup2 ol s t = some l → dcontains m l.method_data = true := by
    intro s t l hst
    simp only [lookup2] at hst
    cases hfs : dfind s ol with
    | none => rw [hfs] at hst; simp at hst
    | some links =>
      rw [hfs] at hst
      have hst2 : dfind t links = some l := hst
      exact hpre _ (mem_of_dfind_some hfs) _ (mem_of_dfind_some hst2)
  have holn : ∀ s links, dfind s ol = some links → NodupKeys links :=
    fun s links hf => hwfol.2 _ (mem_of_dfind_some hf)
  unfold add_links_from_method at h
  by_cases hdup : (lc.methods.contains m) = true
  · rw [if_pos hdup] at h
    exact absurd h (by simp)
  · rw [if_neg hdup] at h
    by_cases hlen : lc.methods.length = 0
    · rw [if_pos hlen] at h
      have hlc' : lc' = ⟨lc.methods ++ [m], ol, lc.and_mode⟩ :=
        (Except.ok.inj h).symm
      have hld : lc'.link_data = ol := by rw [hlc']
      have hms : lc'.methods = lc.methods ++ [m] := by rw [hlc']
      have handm : lc'.and_mode = lc.and_mode := by rw [hlc']
      have hmethods : lc.methods = [] := List.length_eq_zero.mp hlen
      refine ⟨handm.trans hand, hld ▸ hwfol, hms, ?_⟩
      intro s t l hst mm hmm
      rw [hld] at hst
      rw [hms, hmethods] at hmm
      simp only [List.nil_append, List.mem_cons, List.not_mem_nil, or_false] at hmm
      subst hmm
      exact hpre2 s t l hst
    · rw [if_neg hlen] at h
      rw [if_neg (by rw [hand]; simp)] at h
      have hlc' : lc' = ⟨lc.methods ++ [m], merge_and_mode lc.link_data ol, lc.and_mode⟩ :=
        (Except.ok.inj h).symm
      have hld : lc'.link_data = merge_and_mode lc.link_data ol := by rw [hlc']
      have hms : lc'.methods = lc.methods ++ [m] := by rw [hlc']
      have handm : lc'.and_mode = lc.and_mode := by rw [hlc']
      refine ⟨handm.trans hand, hld ▸ wf_merge_and_mode hwf, hms, ?_⟩
      intro s t l hst mm hmm
      rw [hld] at hst
      rw [hms] at hmm
      rw [lookup2_merge_and_mode lc.link_data ol hwf.1 holn s t] at hst
      cases ha : lookup2 lc.link_data s t with
      | none => rw [ha] at hst; simp at hst
      | some a =>
        cases hb : lookup2 ol s t with
        | none => rw [ha, hb] at hst; simp at hst
        | some b =>
          rw [ha, hb] at hst
          have hl : l = a._merge b := (Option.some.inj hst).symm
          subst hl
          rcases List.mem_append.mp hmm with hmm1 | hmm2
          · exact dcontains_dupdate_left _ (hP s t a ha mm hmm1)
          · have : mm = m := by simpa using hmm2
            subst this
            exact dcontains_dupdate_right _ (hpre2 s t b hb)

/-- The invariant carried through a whole `add_all` run. -/
theorem add_all_inv {δ : Type} (contribs : List (Nat × LinkData δ))
    (lc : LinkCollection δ)
    (hand : lc.and_mode = true)
    (hwf : WFLinkData lc.link_data)
    (hP : ∀ s t l, lookup2 lc.link_data s t = some l →
      ∀ mm, mm ∈ lc.methods → dcontains mm l.method_data = true)
    (hwfc : ∀ c ∈ contribs, WFLinkData c.2)
    (hpre : ∀ c ∈ contribs, ∀ p ∈ c.2, ∀ q ∈ p.2, dcontains c.1 q.2.method_data = true)
    {lc' : LinkCollection δ}
    (h : add_all lc contribs = Except.ok lc') :
    lc'.and_mode = true ∧ WFLinkData lc'.link_data ∧
    lc'.methods = lc.methods ++ contribs.map Prod.fst ∧
    (∀ s t l, lookup2 lc'.link_data s t = some l →
      ∀ mm, mm ∈ lc'.methods → dcontains mm l.method_data = true) := by
  induction contribs generalizing lc with
  | nil =>
    simp only [add_all] at h
    have : lc' = lc := (Except.ok.inj h).symm
    subst this
    exact ⟨hand, hwf, by simp, hP⟩
  | cons c rest ih =>
    simp only [add_all] at h
    cases hstep : add_links_from_method lc c.1 c.2 with
    | error e => rw [hstep] at h; simp at h
    | ok lc2 =>
      rw [hstep] at h
      simp only at h
      obtain ⟨hand2, hwf2, hm2, hP2⟩ := add_step_preserves hand hwf
        (hwfc c (List.mem_cons_self _ _)) hP
        (hpre c (List.mem_cons_self _ _)) hstep
      obtain ⟨hand3, hwf3, hm3, hP3⟩ := ih lc2 hand2 hwf2 hP2
        (fun c' hc' => hwfc c' (List.mem_cons_of_mem _ hc'))
        (fun c' hc' => hpre c' (List.mem_cons_of_mem _ hc')) h
      refine ⟨hand3, hwf3, ?_, hP3⟩
      rw [hm3, hm2]
      simp

/-- C3: AND-mode invariant.  Assuming every contribution is a
well-formed dict whose links each carry payload data for the
contributing method, after N distinct methods have contributed through
`_add_links_from_method` every surviving `(source, target)` link holds
payload data from all N methods.  (Distinctness is forced: a duplicate
method raises, so `add_all` would not return `ok`.) -/
theorem C3_and_mode_all_methods_invariant {δ : Type}
    (contribs : List (Nat × LinkData δ))
    (hwfc : ∀ c ∈ contribs, WFLinkData c.2)
    (hpre : ∀ c ∈ contribs, ∀ p ∈ c.2, ∀ q ∈ p.2, dcontains c.1 q.2.method_data = true)
    {lc' : LinkCollection δ}
    (h : add_all ⟨[], [], true⟩ contribs = Except.ok lc') :
    lc'.methods = contribs.map Prod.fst ∧
    (∀ s t l, lookup2 lc'.link_data s t = some l →
      ∀ c ∈ contribs, dcontains c.1 l.method_data = true) := by
  obtain ⟨_, _, hm, hP⟩ := add_all_inv contribs ⟨[], [], true⟩ rfl
    (by constructor
        · simp [NodupKeys, dkeys]
        · intro p hp; simp at hp)
    (by intro s t l hst; simp [lookup2, dfind] at hst)
    hwfc hpre h
  simp only [List.nil_append] at hm
  refine ⟨hm, fun s t l hst c hc => ?_⟩
  exact hP s t l hst c.1 (by rw [hm]; exact List.mem_map_of_mem Prod.fst hc)

/-- C3 witness: two contributing methods on the demonstration data; the
surviving pair `(s1, t2)` carries payload for both methods 1 and 2. -/
theorem C3_and_mode_all_methods_invariant_witness :
    ∃ lc' : LinkCollection Nat,
      add_all ⟨[], [], true⟩ [(1, demoA), (2, demoB)] = Except.ok lc' ∧
      lc'.methods = [1, 2] ∧
      ∃ l, lookup2 lc'.link_data gcf1 spec2 = some l ∧
        dcontains 1 l.method_data = true ∧ dcontains 2 l.method_data = true := by
  have h : add_all (⟨[], [], true⟩ : LinkCollection Nat) [(1, demoA), (2, demoB)] =
      Except.ok ⟨[1, 2], merge_and_mode demoA demoB, true⟩ := by rfl
  obtain ⟨hm, hP⟩ := C3_and_mode_all_methods_invariant [(1, demoA), (2, demoB)]
    (by decide) (by decide) h
  refine ⟨_, h, hm, ?_⟩
  have hl : lookup2 (merge_and_mode demoA demoB) gcf1 spec2 =
      some ((ObjectLink.mk' gcf1 spec2 1 11)._merge (ObjectLink.mk' gcf1 spec2 2 20)) := by
    decide
  refine ⟨_, hl, ?_, ?_⟩
  · exact hP gcf1 spec2 _ hl (1, demoA) (by simp)
  · exact hP gcf1 spec2 _ hl (2, demoB) (by simp)

/-! ### C4: standardisation and cutoff -/

theorem stdFilterRow_complete {zf : Nat → Nat → ℚ → ℚ} {cutoff : Option ℚ}
    {results : List (Nat × Nat × ℚ)} {a b : Nat} {s : ℚ}
    (h : (a, b, s) ∈ results) (hk : cutoffKeep cutoff (zf a b s) = true) :
    (a, b, zf a b s) ∈ stdFilterRow zf cutoff results := by
  induction results with
  | nil => simp at h
  | cons r rest ih =>
    rcases List.mem_cons.mp h with h1 | h2
    · subst h1
      simp only [stdFilterRow, List.filterMap_cons, hk, if_pos]
      exact List.mem_cons_self _ _
    · have hmem := ih h2
      simp only [stdFilterRow, List.filterMap_cons]
      by_cases hr : cutoffKeep cutoff (zf r.1 r.2.1 r.2.2) = true
      · simp only [hr, if_pos]
        exact List.mem_cons_of_mem _ (by simpa [stdFilterRow] using hmem)
      · simp only [show cutoffKeep cutoff (zf r.1 r.2.1 r.2.2) = false by
          cases hc : cutoffKeep cutoff (zf r.1 r.2.1 r.2.2)
          · rfl
          · exact absurd hc hr]
        simpa [stdFilterRow] using hmem

theorem stdFilterRow_sound {zf : Nat → Nat → ℚ → ℚ} {cutoff : Option ℚ}
    {results : List (Nat × Nat × ℚ)} :
    ∀ x ∈ stdFilterRow zf cutoff results,
      ∃ s0, (x.1, x.2.1, s0) ∈ results ∧ x.2.2 = zf x.1 x.2.1 s0 ∧
        cutoffKeep cutoff x.2.2 = true := by
  induction results with
  | nil => intro x hx; simp [stdFilterRow] at hx
  | cons r rest ih =>
    intro x hx
    simp only [stdFilterRow, List.filterMap_cons] at hx
    by_cases hr : cutoffKeep cutoff (zf r.1 r.2.1 r.2.2) = true
    · rw [if_pos hr] at hx
      rcases List.mem_cons.mp hx with h1 | h2
      · subst h1
        exact ⟨r.2.2, List.mem_cons_self _ _, rfl, hr⟩
      · obtain ⟨s0, hs0, hz, hk⟩ := ih x (by simpa [stdFilterRow] using h2)
        exact ⟨s0, List.mem_cons_of_mem _ hs0, hz, hk⟩
    · rw [if_neg hr] at hx
      obtain ⟨s0, hs0, hz, hk⟩ := ih x (by simpa [stdFilterRow] using hx)
      exact ⟨s0, List.mem_cons_of_mem _ hs0, hz, hk⟩

/-- C4: with `standardised=True`, both postprocessing paths compute for
every raw row `(src, dst, s)` exactly
`z = (s - expected[m][g]) / variance_sqrt[m][g]` (with `m`/`g` the two
strain counts) and retain the pair exactly when the cutoff test
`cutoff is None or z >= cutoff` passes; `cutoff = None` retains
everything and a finite cutoff is boundary-inclusive. -/
theorem C4_standardised_score_and_cutoff
    (expected variance_sqrt : Nat → Nat → ℚ)
    (met_strains specStrains famStrains gen_strains : Nat → Nat)
    (cutoff : Option ℚ) (results : List (List (Nat × Nat × ℚ))) :
    (∀ src dst s, (src, dst, s) ∈ results.getD 0 [] →
      (((src, dst,
          (s - expected (met_strains src) (gen_strains dst)) /
            variance_sqrt (met_strains src) (gen_strains dst)) ∈
        (metcalf_postprocess_met expected variance_sqrt met_strains gen_strains
          cutoff results).getD 0 []) ↔
        cutoffKeep cutoff
          ((s - expected (met_strains src) (gen_strains dst)) /
            variance_sqrt (met_strains src) (gen_strains dst)) = true)) ∧
    (∀ x ∈ (metcalf_postprocess_met expected variance_sqrt met_strains gen_strains
        cutoff results).getD 0 [],
      ∃ s0, (x.1, x.2.1, s0) ∈ results.getD 0 [] ∧
        x.2.2 = (s0 - expected (met_strains x.1) (gen_strains x.2.1)) /
          variance_sqrt (met_strains x.1) (gen_strains x.2.1) ∧
        cutoffKeep cutoff x.2.2 = true) ∧
    (∀ src dst s, (src, dst, s) ∈ results.getD 0 [] →
      (((src, dst,
          (s - expected (specStrains dst) (gen_strains src)) /
            variance_sqrt (specStrains dst) (gen_strains src)) ∈
        (metcalf_postprocess_gen expected variance_sqrt specStrains famStrains
          gen_strains cutoff results).getD 0 []) ↔
        cutoffKeep cutoff
          ((s - expected (specStrains dst) (gen_strains src)) /
            variance_sqrt (specStrains dst) (gen_strains src)) = true)) ∧
    (∀ src dst s, (src, dst, s) ∈ results.getD 1 [] →
      (((src, dst,
          (s - expected (famStrains dst) (gen_strains src)) /
            variance_sqrt (famStrains dst) (gen_strains src)) ∈
        (metcalf_postprocess_gen expected variance_sqrt specStrains famStrains
          gen_strains cutoff results).getD 1 []) ↔
        cutoffKeep cutoff
          ((s - expected (famStrains dst) (gen_strains src)) /
            variance_sqrt (famStrains dst) (gen_strains src)) = true)) ∧
    (∀ x ∈ (metcalf_postprocess_gen expected variance_sqrt specStrains famStrains
        gen_strains cutoff results).getD 0 [],
      ∃ s0, (x.1, x.2.1, s0) ∈ results.getD 0 [] ∧
        x.2.2 = (s0 - expected (specStrains x.2.1) (gen_strains x.1)) /
          variance_sqrt (specStrains x.2.1) (gen_strains x.1) ∧
        cutoffKeep cutoff x.2.2 = true) ∧
    (∀ z : ℚ, cutoffKeep none z = true) ∧
    (∀ c z : ℚ, cutoffKeep (some c) z = true ↔ z ≥ c) := by
  have hmem_iff : ∀ (zf : Nat → Nat → ℚ → ℚ) (rows : List (Nat × Nat × ℚ))
      (src dst : Nat) (s : ℚ), (src, dst, s) ∈ rows →
      (((src, dst, zf src dst s) ∈ stdFilterRow zf cutoff rows) ↔
        cutoffKeep cutoff (zf src dst s) = true) := by
    intro zf rows src dst s hmem
    constructor
    · intro hout
      obtain ⟨s0, _, hz, hk⟩ := stdFilterRow_sound _ hout
      simpa using hk
    · intro hk
      exact stdFilterRow_complete hmem hk
  have hconv_met : (metcalf_postprocess_met expected variance_sqrt met_strains
      gen_strains cutoff results).getD 0 [] =
      stdFilterRow (fun src dst s =>
        (s - expected (met_strains src) (gen_strains dst)) /
          variance_sqrt (met_strains src) (gen_strains dst)) cutoff
        (results.getD 0 []) := rfl
  have hconv_gen0 : (metcalf_postprocess_gen expected variance_sqrt specStrains
      famStrains gen_strains cutoff results).getD 0 [] =
      stdFilterRow (fun src dst s =>
        (s - expected (specStrains dst) (gen_strains src)) /
          variance_sqrt (specStrains dst) (gen_strains src)) cutoff
        (results.getD 0 []) := rfl
  have hconv_gen1 : (metcalf_postprocess_gen expected variance_sqrt specStrains
      famStrains gen_strains cutoff results).getD 1 [] =
      stdFilterRow (fun src dst s =>
        (s - expected (famStrains dst) (gen_strains src)) /
          variance_sqrt (famStrains dst) (gen_strains src)) cutoff
        (results.getD 1 []) := rfl
  refine ⟨?_, ?_, ?_, ?_, ?_, ?_, ?_⟩
  · intro src dst s hmem
    rw [hconv_met]
    exact hmem_iff (fun src dst s =>
      (s - expected (met_strains src) (gen_strains dst)) /
        variance_sqrt (met_strains src) (gen_strains dst))
      (results.getD 0 []) src dst s hmem
  · intro x hx
    rw [hconv_met] at hx
    exact stdFilterRow_sound x hx
  · intro src dst s hmem
    rw [hconv_gen0]
    exact hmem_iff (fun src dst s =>
      (s - expected (specStrains dst) (gen_strains src)) /
        variance_sqrt (specStrains dst) (gen_strains src))
      (results.getD 0 []) src dst s hmem
  · intro src dst s hmem
    rw [hconv_gen1]
    exact hmem_iff (fun src dst s =>
      (s - expected (famStrains dst) (gen_strains src)) /
        variance_sqrt (famStrains dst) (gen_strains src))
      (results.getD 1 []) src dst s hmem
  · intro x hx
    rw [hconv_gen0] at hx
    exact stdFilterRow_sound x hx
  · intro z; rfl
  · intro c z
    simp [cutoffKeep]

/-- C4 witness: tables `expected = 1`, `variance_sqrt = 2`, cutoff `1`;
the raw score `5` standardises to `(5-1)/2 = 2 ≥ 1` and is kept, the raw
score `2` standardises to `(2-1)/2 = 1/2 < 1` and is dropped (met path);
the gen path keeps the standardised `5`-row too. -/
theorem C4_standardised_score_and_cutoff_witness :
    (((0 : Nat), (0 : Nat), ((5 : ℚ) - 1) / 2) ∈
      (metcalf_postprocess_met (fun _ _ => 1) (fun _ _ => 2) id id (some 1)
        [[(0, 0, 5), (1, 1, 2)]]).getD 0 []) ∧
    ¬ (((1 : Nat), (1 : Nat), ((2 : ℚ) - 1) / 2) ∈
      (metcalf_postprocess_met (fun _ _ => 1) (fun _ _ => 2) id id (some 1)
        [[(0, 0, 5), (1, 1, 2)]]).getD 0 []) ∧
    (((0 : Nat), (0 : Nat), ((5 : ℚ) - 1) / 2) ∈
      (metcalf_postprocess_gen (fun _ _ => 1) (fun _ _ => 2) id id id (some 1)
        [[(0, 0, 5), (1, 1, 2)]]).getD 0 []) := by
  obtain ⟨hmet, _, hgen0, _, _, _, hcut⟩ :=
    C4_standardised_score_and_cutoff (fun _ _ => 1) (fun _ _ => 2) id id id id
      (some 1) [[(0, 0, 5), (1, 1, 2)]]
  refine ⟨?_, ?_, ?_⟩
  · exact (hmet 0 0 5 (by simp)).mpr (by norm_num [cutoffKeep])
  · intro hmem
    have h2 := (hmet 1 1 2 (by simp)).mp hmem
    rw [show cutoffKeep (some 1) (((2 : ℚ) - 1) / 2) = false by
      norm_num [cutoffKeep]] at h2
    exact Bool.noConfusion h2
  · exact (hgen0 0 0 5 (by simp)).mpr (by norm_num [cutoffKeep])

/-! ### C5: the shared mutable default for `shared_strains` -/

/-- C5 (refuting evaluation, claim is right and the code is wrong): the
default `shared_strains=[]` of `ObjectLink.__init__` is evaluated once
at `def` time, so two links constructed without the argument alias one
list object: appending strain `7` through the first link makes the
second link\'s `shared_strains` read `[7]` instead of staying an
independent empty container. -/
theorem C5_default_shared_strains_aliased :
    (let p := objectLinkClassDef ⟨[]⟩
     let p1 := objectLinkInitRef p.2 p.1 1 2 none
     let p2 := objectLinkInitRef p.2 p1.1 3 4 none
     let h3 := appendSharedStrain p2.1 p1.2 7
     heapGet h3 p2.2.shared_strains) = [7] ∧
    (let p := objectLinkClassDef ⟨[]⟩
     let p1 := objectLinkInitRef p.2 p.1 1 2 none
     let p2 := objectLinkInitRef p.2 p1.1 3 4 none
     p1.2.shared_strains = p2.2.shared_strains) := by
  constructor
  · decide
  · decide

/-! ### C6: type-homogeneity rejection -/

/-- C6: a non-empty input holding two objects of different runtime kinds
makes both `MetcalfScoring.get_links` and `RosettaScoring.get_links`
raise their uniform-type exception.  The check is the first statement of
both functions, and in this pure rendering the error is returned without
an updated collection, so the passed collection\'s link data and method
set are untouched. -/
theorem C6_mixed_types_rejected
    (cfg : MetcalfCfg) (env : MetcalfEnv) (rcfg : RosettaCfg)
    (ro_hits : List RosettaHit) (parentOf : NPObject → NPObject)
    (bgcsOf : NPObject → List NPObject)
    (objects : List NPObject) (lcM : LinkCollection ℚ)
    (lcR : LinkCollection (List RosettaHit))
    {x y : NPObject} (hx : x ∈ objects) (hy : y ∈ objects)
    (hxy : x.kind ≠ y.kind) :
    metcalf_get_links cfg env objects lcM =
      Except.error "MetcalfScoring: uniformly-typed list of objects is required" ∧
    rosetta_get_links rcfg ro_hits parentOf bgcsOf objects lcR =
      Except.error "RosettaScoring: uniformly-typed list of objects is required" := by
  cases objects with
  | nil => simp at hx
  | cons o rest =>
    have hall : ((o :: rest).all (fun z => z.kind = o.kind)) = false := by
      cases hc : ((o :: rest).all (fun z => z.kind = o.kind)) with
      | false => rfl
      | true =>
        exfalso
        have hx' := List.all_eq_true.mp hc _ hx
        have hy' := List.all_eq_true.mp hc _ hy
        exact hxy ((of_decide_eq_true hx').trans (of_decide_eq_true hy').symm)
    constructor
    · simp only [metcalf_get_links]
      rw [hall]
      rw [if_pos (by simp)]
    · simp only [rosetta_get_links]
      rw [hall]
      rw [if_pos (by simp)]

/-- C6 witness: a GCF and a Spectrum in one input list. -/
theorem C6_mixed_types_rejected_witness :
    metcalf_get_links ⟨0, none, true⟩
      ⟨fun _ _ => [], fun _ _ => 0, fun _ _ => 0, fun _ => gcf1, fun _ => gcf1,
       fun _ => gcf1, fun _ => 0, fun _ => 0, fun _ => 0⟩
      [gcf1, spec1] ⟨[], [], true⟩ =
      Except.error "MetcalfScoring: uniformly-typed list of objects is required" ∧
    rosetta_get_links ⟨1, true, 0, 0⟩ [] (fun z => z) (fun _ => [])
      [gcf1, spec1] ⟨[], [], true⟩ =
      Except.error "RosettaScoring: uniformly-typed list of objects is required" :=
  C6_mixed_types_rejected ⟨0, none, true⟩
    ⟨fun _ _ => [], fun _ _ => 0, fun _ _ => 0, fun _ => gcf1, fun _ => gcf1,
     fun _ => gcf1, fun _ => 0, fun _ => 0, fun _ => 0⟩
    ⟨1, true, 0, 0⟩ [] (fun z => z) (fun _ => []) [gcf1, spec1] ⟨[], [], true⟩
    ⟨[], [], true⟩ (x := gcf1) (y := spec1) (by simp) (by simp) (by decide)

/-! ### C8: payload lookup failure -/

/-- C8: for any `ObjectLink` and any method with no payload entry in its
`_method_data`, `data(method)` raises `KeyError` (a plain dict
subscript) and `link[method]` also fails — the `__getitem__` fallback
`object.__getitem__(self, name)` raises `AttributeError`, a
KeyError-equivalent lookup failure. -/
theorem C8_missing_payload_lookup_fails {δ : Type} (ob : ObjectLink δ) (m : Nat)
    (h : dcontains m ob.method_data = false) :
    ob.data m = Except.error ObjectLink.PyErr.keyError ∧
    ob.getitem m = Except.error ObjectLink.PyErr.attributeError := by
  have hf : dfind m ob.method_data = none := by
    cases hc : dfind m ob.method_data with
    | none => rfl
    | some v =>
      rw [show dcontains m ob.method_data = true by simp [dcontains, hc]] at h
      exact Bool.noConfusion h
  constructor
  · unfold ObjectLink.data
    rw [hf]
  · unfold ObjectLink.getitem
    rw [if_neg (by rw [h]; simp)]

/-- C8 witness: a link built by method 1 queried for method 2. -/
theorem C8_missing_payload_lookup_fails_witness :
    (ObjectLink.mk' gcf1 spec1 1 (42 : Nat)).data 2 =
      Except.error ObjectLink.PyErr.keyError ∧
    (ObjectLink.mk' gcf1 spec1 1 (42 : Nat)).getitem 2 =
      Except.error ObjectLink.PyErr.attributeError :=
  C8_missing_payload_lookup_fails (ObjectLink.mk' gcf1 spec1 1 42) 2 (by decide)

/-! ### C9: Rosetta per-side score cutoffs -/

/-- C9: `_include_hit` keeps a hit exactly when its spectral match score
is `≥ spec_score_cutoff` and its genomic match score is
`≥ bgc_score_cutoff`; consequently, with `bgc_score_cutoff = 1/2`, a BGC
whose only hit has genomic match score `2/5` produces zero links (the
collection gains the method but no link data). -/
theorem C9_rosetta_score_cutoffs :
    (∀ (cfg : RosettaCfg) (hit : RosettaHit), include_hit cfg hit =
      (decide (cfg.spec_score_cutoff ≤ hit.spec_match_score) &&
       decide (cfg.bgc_score_cutoff ≤ hit.bgc_match_score))) ∧
    rosetta_get_links ⟨6, true, 0, Rat.divInt 1 2⟩
      [⟨⟨ObjKind.spectrum, 10⟩, ⟨ObjKind.bgc, 20⟩, 1, Rat.divInt 2 5⟩]
      (fun _ => ⟨ObjKind.gcf, 30⟩) (fun _ => []) [⟨ObjKind.bgc, 20⟩]
      ⟨[], [], true⟩ =
      Except.ok ⟨[6], [], true⟩ := by
  constructor
  · intro cfg hit
    by_cases h1 : hit.spec_match_score < cfg.spec_score_cutoff
    · simp [include_hit, h1, not_le.mpr h1]
    · by_cases h2 : hit.bgc_match_score < cfg.bgc_score_cutoff
      · simp [include_hit, h1, h2, not_le.mpr h2]
      · simp [include_hit, h1, h2, not_lt.mp h1, not_lt.mp h2]
  · rfl

/-! ### C7: setup cache fingerprint -/

theorem countsMatch_eq_iff {c n : List Nat} (hlen : c.length = n.length) :
    countsMatch c n = true ↔ c = n := by
  have hchar : countsMatch c n = true ↔ ∀ i, i < c.length → c.getD i 0 = n.getD i 0 := by
    unfold countsMatch
    rw [List.all_eq_true]
    constructor
    · intro h i hi
      have := h i (List.mem_range.mpr hi)
      exact of_decide_eq_true this
    · intro h i hi
      exact decide_eq_true (h i (List.mem_range.mp hi))
  rw [hchar]
  constructor
  · intro h
    clear hchar
    induction c generalizing n with
    | nil => exact (List.length_eq_zero.mp hlen.symm).symm
    | cons a c' ih =>
      cases n with
      | nil => simp at hlen
      | cons b n' =>
        have h0 := h 0 (by simp)
        simp only [List.getD, List.get?, Option.getD] at h0
        have htail : ∀ i, i < c'.length → c'.getD i 0 = n'.getD i 0 := by
          intro i hi
          have := h (i + 1) (by simpa using Nat.succ_lt_succ hi)
          simpa [List.getD] using this
        have hlen' : c'.length = n'.length := by simpa using hlen
        rw [ih hlen' htail]
        rw [show a = b from by simpa [List.getD] using h0]
  · intro h i hi
    rw [h]

/-- C7: `MetcalfScoring.setup` from an uninitialised state reuses the
cached `(datalinks, linkfinder)` exactly when a cache file exists,
deserialises, and its five cached cardinalities all equal the current
dataset\'s; in every other case (no file, failed deserialisation, or any
differing count) the structures are recomputed and persisted together
with the current counts. -/
theorem C7_setup_cache_fingerprint {σ τ : Type}
    (cache_file : CacheFile σ τ) (dataset_counts : List Nat)
    (freshDL : σ) (freshLF : τ)
    (hlen : dataset_counts.length = 5)
    (hclen : ∀ c dl lf, cache_file = CacheFile.valid c dl lf → c.length = 5) :
    (∀ c dl lf, cache_file = CacheFile.valid c dl lf → c = dataset_counts →
      metcalf_setup cache_file dataset_counts freshDL freshLF = ((dl, lf), none)) ∧
    ((∀ c dl lf, cache_file = CacheFile.valid c dl lf → c ≠ dataset_counts) →
      metcalf_setup cache_file dataset_counts freshDL freshLF =
        ((freshDL, freshLF), some (dataset_counts, freshDL, freshLF))) := by
  constructor
  · intro c dl lf hfile hc
    subst hfile
    have hcm : countsMatch c dataset_counts = true :=
      (countsMatch_eq_iff (by rw [hclen c dl lf rfl, hlen])).mpr hc
    simp [metcalf_setup, hcm]
  · intro hne
    cases cache_file with
    | absent => rfl
    | corrupt => rfl
    | valid c dl lf =>
      have hcm : countsMatch c dataset_counts = false := by
        cases hc : countsMatch c dataset_counts with
        | false => rfl
        | true =>
          exact absurd ((countsMatch_eq_iff (by rw [hclen c dl lf rfl, hlen])).mp hc)
            (hne c dl lf rfl)
      simp [metcalf_setup, hcm]

/-- C7 witness: a matching cache is reused; changing one cardinality, or
having no cache, forces recomputation and persistence. -/
theorem C7_setup_cache_fingerprint_witness :
    metcalf_setup (CacheFile.valid [1, 2, 3, 4, 5] (7 : Nat) (8 : Nat))
      [1, 2, 3, 4, 5] 0 0 = ((7, 8), none) ∧
    metcalf_setup (CacheFile.valid [1, 2, 3, 4, 5] (7 : Nat) (8 : Nat))
      [1, 2, 3, 4, 6] 0 0 = ((0, 0), some ([1, 2, 3, 4, 6], 0, 0)) ∧
    metcalf_setup (CacheFile.absent : CacheFile Nat Nat)
      [1, 2, 3, 4, 5] 0 0 = ((0, 0), some ([1, 2, 3, 4, 5], 0, 0)) := by
  refine ⟨?_, ?_, ?_⟩
  · exact (C7_setup_cache_fingerprint (CacheFile.valid [1, 2, 3, 4, 5] 7 8)
      [1, 2, 3, 4, 5] 0 0 (by decide)
      (by intro c dl lf h; cases h; decide)).1 _ _ _ rfl rfl
  · exact (C7_setup_cache_fingerprint (CacheFile.valid [1, 2, 3, 4, 5] 7 8)
      [1, 2, 3, 4, 6] 0 0 (by decide)
      (by intro c dl lf h; cases h; decide)).2
      (by intro c dl lf h; cases h; decide)
  · exact (C7_setup_cache_fingerprint (CacheFile.absent : CacheFile Nat Nat)
      [1, 2, 3, 4, 5] 0 0 (by decide)
      (by intro c dl lf h; cases h)).2
      (by intro c dl lf h; cases h)

/-! ### C10: TestScoring -/

theorem exceptOk_of_toOption {ε α : Type} {e : Except ε α} {x : α}
    (h : e.toOption = some x) : e = Except.ok x := by
  cases e with
  | error err => simp [Except.toOption] at h
  | ok y =>
    simp only [Except.toOption] at h
    rw [Option.some.inj h]

theorem dkeys_map_pair {κ' β γ : Type} (f : κ' × β → γ) (l : List (κ' × β)) :
    dkeys (l.map (fun p => (p.1, f p))) = dkeys l := by
  induction l with
  | nil => rfl
  | cons p rest ih => simp only [List.map_cons, dkeys] at *; rw [ih]

/-- The payload rewrite TestScoring performs on each kept link:
`link._method_data[self] = rand` then `del link._method_data[self.mc]`
turns a pure-Metcalf payload dict into a pure-TestScoring one. -/
theorem testScoring_mutate_keys {δ' : Type} (selfId mcId : Nat) (hne : selfId ≠ mcId)
    (md : List (Nat × δ')) (r : δ') (hk : dkeys md = [mcId]) :
    ddel mcId (dinsert selfId r md) = [(selfId, r)] := by
  cases md with
  | nil => simp [dkeys] at hk
  | cons p tl =>
    simp only [dkeys, List.map_cons, List.cons.injEq] at hk
    have htl : tl = [] := List.map_eq_nil_iff.mp hk.2
    subst htl
    have hp1 : ¬ p.1 = selfId := by rw [hk.1]; exact fun hh => hne hh.symm
    simp only [dinsert, if_neg hp1]
    simp only [ddel, hk.1, if_pos]

/-- Core of the amended C10: adding the truncated-and-rewritten mapping
`R` to the collection `⟨[mcId], R ++ D, true⟩` (the state TestScoring
leaves just before its own `_add_links_from_method` call, the mutation
having already hit the collection\'s first `|R|` sources) yields methods
`[mcId, selfId]` and only pure-TestScoring payloads. -/
theorem testScoring_and_mode_core (selfId mcId : Nat) (hne : selfId ≠ mcId)
    (R D : LinkData ℚ)
    (hRD : NodupKeys (R ++ D))
    (hRin : ∀ p ∈ R, NodupKeys p.2)
    (hDin : ∀ p ∈ D, NodupKeys p.2)
    (hRkeys : ∀ p ∈ R, ∀ q ∈ p.2, dkeys q.2.method_data = [selfId])
    {lc' : LinkCollection ℚ}
    (h : add_links_from_method ⟨[mcId], R ++ D, true⟩ selfId R = Except.ok lc') :
    lc'.methods = [mcId, selfId] ∧
    ∀ p ∈ lc'.link_data, ∀ q ∈ p.2, dkeys q.2.method_data = [selfId] := by
  have hc : ([mcId].contains selfId) = false := by
    simp only [List.contains_cons, List.contains_nil, Bool.or_false, beq_eq_false_iff_ne]
    exact hne
  have hcomp : add_links_from_method (⟨[mcId], R ++ D, true⟩ : LinkCollection ℚ)
      selfId R = Except.ok ⟨[mcId, selfId], merge_and_mode (R ++ D) R, true⟩ := by
    unfold add_links_from_method
    rw [hc]
    rfl
  have hlc' : lc' = ⟨[mcId, selfId], merge_and_mode (R ++ D) R, true⟩ :=
    (Except.ok.inj (hcomp.symm.trans h)).symm
  subst hlc'
  refine ⟨rfl, ?_⟩
  intro p hp q hq
  have hwfRD : WFLinkData (R ++ D) := by
    refine ⟨hRD, ?_⟩
    intro p' hp'
    rcases List.mem_append.mp hp' with h1 | h2
    · exact hRin p' h1
    · exact hDin p' h2
  have hwfF : WFLinkData (merge_and_mode (R ++ D) R) := wf_merge_and_mode hwfRD
  have holn : ∀ s links, dfind s R = some links → NodupKeys links :=
    fun s l hf => hRin _ (mem_of_dfind_some hf)
  have hfindp : dfind p.1 (merge_and_mode (R ++ D) R) = some p.2 :=
    dfind_of_mem hwfF.1 hp
  have hfindq : dfind q.1 p.2 = some q.2 := dfind_of_mem (hwfF.2 p hp) hq
  have hl2 : lookup2 (merge_and_mode (R ++ D) R) p.1 q.1 = some q.2 := by
    simp [lookup2, hfindp, hfindq]
  rw [lookup2_merge_and_mode (R ++ D) R hRD holn] at hl2
  cases ha : lookup2 (R ++ D) p.1 q.1 with
  | none => rw [ha] at hl2; simp at hl2
  | some a =>
    cases hb : lookup2 R p.1 q.1 with
    | none => rw [ha, hb] at hl2; simp at hl2
    | some b =>
      rw [ha, hb] at hl2
      have hq2 : q.2 = a._merge b := (Option.some.inj hl2).symm
      have hfR : ∃ links, dfind p.1 R = some links ∧ dfind q.1 links = some b := by
        simp only [lookup2] at hb
        cases hfs : dfind p.1 R with
        | none => rw [hfs] at hb; simp at hb
        | some links =>
          rw [hfs] at hb
          exact ⟨links, rfl, hb⟩
      obtain ⟨links, hfls, hflb⟩ := hfR
      have hfRD : dfind p.1 (R ++ D) = some links := by
        rw [dfind_append, hfls]
      have hab : a = b := by
        simp only [lookup2] at ha
        rw [hfRD] at ha
        have ha2 : dfind q.1 links = some a := ha
        rw [hflb] at ha2
        exact (Option.some.inj ha2).symm
      subst hab
      have hbkeys : dkeys a.method_data = [selfId] :=
        hRkeys _ (mem_of_dfind_some hfls) _ (mem_of_dfind_some hflb)
      have hnodupb : NodupKeys a.method_data := by
        rw [NodupKeys, hbkeys]
        simp
      rw [hq2]
      show dkeys (dupdate a.method_data a.method_data) = [selfId]
      rw [dupdate_self hnodupb, hbkeys]

/-- The Metcalf result mapping used by the C10 concrete runs: two
sources, each with one link whose payload is tagged by the internal
Metcalf instance (method id 5). -/
def demoMcMap : LinkData ℚ :=
  [(gcf1, [(spec1, ObjectLink.mk' gcf1 spec1 5 3)]),
   (gcf2, [(spec2, ObjectLink.mk' gcf2 spec2 5 4)])]

/-- The 50% truncation count on the two-source demonstration mapping:
`int(2 * 0.5) = 1`.  (`Rat.mul` is irreducible, so this is established
with `norm_num` rather than by evaluation.) -/
theorem demoMcMap_num_to_keep :
    ((((demoMcMap.length : ℚ)) * Rat.divInt 1 2).floor).toNat = 1 := by
  have h1 : (demoMcMap.length : ℚ) = 2 := by decide
  rw [h1]
  have h2 : (2 : ℚ) * Rat.divInt 1 2 = 1 := by
    rw [Rat.divInt_eq_div]
    norm_num
  rw [h2, Rat.floor_def']
  decide

/-- C10 counterexample: on an OR-mode collection with no prior
contributions, `TestScoring.get_links` returns successfully with
`method_count = 2`, but the retained link `(gcf2, spec2)` — one of the
sources dropped by the 50% truncation — still carries payload only for
the internal Metcalf instance (id 5), not for the TestScoring instance
(id 9), refuting the claim as stated. -/
theorem C10_test_scoring_counterexample :
    ∃ lc' : LinkCollection ℚ,
      test_get_links 9 5 (Rat.divInt 1 2) (fun _ _ => 7) demoMcMap
        ⟨[], [], false⟩ = Except.ok lc' ∧
      lc'.methods = [5, 9] ∧
      ∃ l, lookup2 lc'.link_data gcf2 spec2 = some l ∧
        dkeys l.method_data = [5] ∧ dcontains 9 l.method_data = false := by
  have hbody : test_get_links 9 5 (Rat.divInt 1 2) (fun _ _ => 7) demoMcMap
      ⟨[], [], false⟩ =
      add_links_from_method
        ⟨[5],
         ((demoMcMap.take ((((demoMcMap.length : ℚ) * Rat.divInt 1 2).floor).toNat)).map
           (fun p => (p.1, p.2.map (fun q =>
             (q.1, ObjectLink.mk q.2.source q.2.target q.2.shared_strains
               (ddel 5 (dinsert 9 ((fun _ _ => (7 : ℚ)) p.1 q.1) q.2.method_data))))))) ++
           demoMcMap.drop ((((demoMcMap.length : ℚ) * Rat.divInt 1 2).floor).toNat),
         false⟩
        9
        ((demoMcMap.take ((((demoMcMap.length : ℚ) * Rat.divInt 1 2).floor).toNat)).map
          (fun p => (p.1, p.2.map (fun q =>
            (q.1, ObjectLink.mk q.2.source q.2.target q.2.shared_strains
              (ddel 5 (dinsert 9 ((fun _ _ => (7 : ℚ)) p.1 q.1) q.2.method_data))))))) := rfl
  rw [demoMcMap_num_to_keep] at hbody
  have hfinal : add_links_from_method
      (⟨[5],
        ((demoMcMap.take 1).map
          (fun p => (p.1, p.2.map (fun q =>
            (q.1, ObjectLink.mk q.2.source q.2.target q.2.shared_strains
              (ddel 5 (dinsert 9 ((fun _ _ => (7 : ℚ)) p.1 q.1) q.2.method_data))))))) ++
          demoMcMap.drop 1,
        false⟩ : LinkCollection ℚ)
      9
      ((demoMcMap.take 1).map
        (fun p => (p.1, p.2.map (fun q =>
          (q.1, ObjectLink.mk q.2.source q.2.target q.2.shared_strains
            (ddel 5 (dinsert 9 ((fun _ _ => (7 : ℚ)) p.1 q.1) q.2.method_data))))))) =
      Except.ok ⟨[5, 9],
        [(gcf1, [(spec1, ⟨gcf1, spec1, [], [(9, 7)]⟩)]),
         (gcf2, [(spec2, ⟨gcf2, spec2, [], [(5, 4)]⟩)])], false⟩ := by rfl
  rw [hfinal] at hbody
  refine ⟨_, hbody, rfl, ⟨gcf2, spec2, [], [(5, 4)]⟩, by decide, by decide, by decide⟩

/-- C10 (amended to the collection mode under which the truncated
sources actually leave the collection): after `TestScoring.get_links`
returns successfully on an AND-mode `LinkCollection` with no prior
contributions, the method set is exactly the internal Metcalf instance
followed by the TestScoring instance (`method_count = 2`), and every
retained `ObjectLink` carries payload data only for the TestScoring
instance, its Metcalf payload having been deleted. -/
theorem C10_test_scoring_and_mode (selfId mcId : Nat) (hne : selfId ≠ mcId)
    (value : ℚ) (rand : NPObject → NPObject → ℚ) (mcResults : LinkData ℚ)
    (hwf : WFLinkData mcResults)
    (hkeys : ∀ p ∈ mcResults, ∀ q ∈ p.2, dkeys q.2.method_data = [mcId])
    {lc' : LinkCollection ℚ}
    (h : test_get_links selfId mcId value rand mcResults ⟨[], [], true⟩ =
      Except.ok lc') :
    lc'.methods = [mcId, selfId] ∧
    ∀ p ∈ lc'.link_data, ∀ q ∈ p.2, dkeys q.2.method_data = [selfId] := by
  have hbody : test_get_links selfId mcId value rand mcResults ⟨[], [], true⟩ =
      add_links_from_method
        ⟨[mcId],
         ((mcResults.take ((((mcResults.length : ℚ) * value).floor).toNat)).map (fun p =>
           (p.1, p.2.map (fun q =>
             (q.1, ObjectLink.mk q.2.source q.2.target q.2.shared_strains
               (ddel mcId (dinsert selfId (rand p.1 q.1) q.2.method_data))))))) ++
           mcResults.drop ((((mcResults.length : ℚ) * value).floor).toNat),
         true⟩
        selfId
        ((mcResults.take ((((mcResults.length : ℚ) * value).floor).toNat)).map (fun p =>
          (p.1, p.2.map (fun q =>
            (q.1, ObjectLink.mk q.2.source q.2.target q.2.shared_strains
              (ddel mcId (dinsert selfId (rand p.1 q.1) q.2.method_data))))))) := rfl
  rw [hbody] at h
  set num := (((mcResults.length : ℚ) * value).floor).toNat with hnumdef
  set R := (mcResults.take num).map (fun p =>
    (p.1, p.2.map (fun q =>
      (q.1, ObjectLink.mk q.2.source q.2.target q.2.shared_strains
        (ddel mcId (dinsert selfId (rand p.1 q.1) q.2.method_data)))))) with hRdef
  set D := mcResults.drop num with hDdef
  have hRk : dkeys R = dkeys (mcResults.take num) := by
    rw [hRdef]
    exact dkeys_map_pair _ _
  have hRin : ∀ p ∈ R, NodupKeys p.2 := by
    intro p hp
    rw [hRdef] at hp
    obtain ⟨p0, hp0, hfp⟩ := List.mem_map.mp hp
    have hwfp0 : NodupKeys p0.2 := hwf.2 p0 ((List.take_sublist _ _).subset hp0)
    rw [← hfp]
    show NodupKeys (p0.2.map _)
    unfold NodupKeys
    have hk2 : dkeys (p0.2.map (fun q =>
        (q.1, ObjectLink.mk q.2.source q.2.target q.2.shared_strains
          (ddel mcId (dinsert selfId (rand p0.1 q.1) q.2.method_data))))) =
        dkeys p0.2 := dkeys_map_pair _ _
    rw [hk2]
    exact hwfp0
  have hRkeys : ∀ p ∈ R, ∀ q ∈ p.2, dkeys q.2.method_data = [selfId] := by
    intro p hp q hq
    rw [hRdef] at hp
    obtain ⟨p0, hp0, hfp⟩ := List.mem_map.mp hp
    rw [← hfp] at hq
    obtain ⟨q0, hq0, hfq⟩ := List.mem_map.mp hq
    rw [← hfq]
    show dkeys (ddel mcId (dinsert selfId (rand p0.1 q0.1) q0.2.method_data)) = [selfId]
    rw [testScoring_mutate_keys selfId mcId hne _ _
      (hkeys p0 ((List.take_sublist _ _).subset hp0) q0 hq0)]
    rfl
  have hRD : NodupKeys (R ++ D) := by
    unfold NodupKeys
    rw [dkeys_append, hRk, hDdef, ← dkeys_append, List.take_append_drop]
    exact hwf.1
  have hDin : ∀ p ∈ D, NodupKeys p.2 := by
    intro p hp
    rw [hDdef] at hp
    exact hwf.2 p ((List.drop_sublist _ _).subset hp)
  exact testScoring_and_mode_core selfId mcId hne R D hRD hRin hDin hRkeys h

/-- C10 witness: the AND-mode run on the demonstration data keeps only
the first source and its link ends up with a pure-TestScoring payload. -/
theorem C10_test_scoring_and_mode_witness :
    ∃ lc' : LinkCollection ℚ,
      test_get_links 9 5 (Rat.divInt 1 2) (fun _ _ => 7) demoMcMap ⟨[], [], true⟩ =
        Except.ok lc' ∧
      lc'.methods = [5, 9] ∧
      (∀ p ∈ lc'.link_data, ∀ q ∈ p.2, dkeys q.2.method_data = [9]) := by
  have hbody : test_get_links 9 5 (Rat.divInt 1 2) (fun _ _ => 7) demoMcMap
      ⟨[], [], true⟩ =
      add_links_from_method
        ⟨[5],
         ((demoMcMap.take ((((demoMcMap.length : ℚ) * Rat.divInt 1 2).floor).toNat)).map
           (fun p => (p.1, p.2.map (fun q =>
             (q.1, ObjectLink.mk q.2.source q.2.target q.2.shared_strains
               (ddel 5 (dinsert 9 ((fun _ _ => (7 : ℚ)) p.1 q.1) q.2.method_data))))))) ++
           demoMcMap.drop ((((demoMcMap.length : ℚ) * Rat.divInt 1 2).floor).toNat),
         true⟩
        9
        ((demoMcMap.take ((((demoMcMap.length : ℚ) * Rat.divInt 1 2).floor).toNat)).map
          (fun p => (p.1, p.2.map (fun q =>
            (q.1, ObjectLink.mk q.2.source q.2.target q.2.shared_strains
              (ddel 5 (dinsert 9 ((fun _ _ => (7 : ℚ)) p.1 q.1) q.2.method_data))))))) := rfl
  rw [demoMcMap_num_to_keep] at hbody
  have hfinal : add_links_from_method
      (⟨[5],
        ((demoMcMap.take 1).map
          (fun p => (p.1, p.2.map (fun q =>
            (q.1, ObjectLink.mk q.2.source q.2.target q.2.shared_strains
              (ddel 5 (dinsert 9 ((fun _ _ => (7 : ℚ)) p.1 q.1) q.2.method_data))))))) ++
          demoMcMap.drop 1,
        true⟩ : LinkCollection ℚ)
      9
      ((demoMcMap.take 1).map
        (fun p => (p.1, p.2.map (fun q =>
          (q.1, ObjectLink.mk q.2.source q.2.target q.2.shared_strains
            (ddel 5 (dinsert 9 ((fun _ _ => (7 : ℚ)) p.1 q.1) q.2.method_data))))))) =
      Except.ok ⟨[5, 9],
        [(gcf1, [(spec1, ⟨gcf1, spec1, [], [(9, 7)]⟩)])], true⟩ := by rfl
  rw [hfinal] at hbody
  obtain ⟨hm, hP⟩ := C10_test_scoring_and_mode 9 5 (by decide) (Rat.divInt 1 2)
    (fun _ _ => 7) demoMcMap (by decide) (by decide) hbody
  exact ⟨_, hbody, hm, hP⟩

end NPL
